import Mathlib

/-!
Verification of the hardcandy declarative schema engine
(src/hardcandy/schema.py and src/hardcandy/fields.py).

Python runtime values flowing through the engine (the source aliases
`Primitive = t.Any`) are modelled by the inductive type `Prim`.  Python
floats are binary64 rationals; every such value has a finite decimal
expansion, so float values are modelled as decimal-scaled integers
`m / 10 ^ e` (constructor `Prim.float m e`), which contains every CPython
float value exactly.  `datetime.datetime` values are modelled by the
`DateTime` structure.
-/

namespace HardCandy

/-- A calendar timestamp, modelling `datetime.datetime` (year, month, day,
hour, minute, second, microsecond). -/
structure DateTime where
  year : Nat
  month : Nat
  day : Nat
  hour : Nat
  minute : Nat
  second : Nat
  microsecond : Nat
deriving DecidableEq, Repr

/-- Python runtime values handled by the engine: `None`, strings, ints,
bools, floats (as decimal-scaled integers `m / 10 ^ e`), lists, dicts with
string keys (association lists in insertion order), `datetime` values and
enum members (identified by their member name). -/
inductive Prim where
  | none
  | str (s : String)
  | int (n : Int)
  | bool (b : Bool)
  | float (m : Int) (e : Nat)
  | list (items : List Prim)
  | map (entries : List (String × Prim))
  | datetime (dt : DateTime)
  | enumMember (name : String)
deriving Repr

/-- Python `value is None` (identity test against the `None` singleton). -/
def Prim.isNone : Prim → Bool
  | .none => true
  | _ => false

/-- The character for the decimal digit `d`. -/
def digitCh (d : Nat) : Char := Char.ofNat (48 + d)

/-- Big-endian decimal digit characters of a natural number. -/
def renderNat (n : Nat) : List Char :=
  if n = 0 then ['0'] else (Nat.digits 10 n).reverse.map digitCh

/-- Decimal rendering of an integer (Python `str` of an `int`). -/
def renderInt (n : Int) : List Char :=
  (if n < 0 then ['-'] else []) ++ renderNat n.natAbs

/-- Accumulator form of decimal-numeral evaluation over digit characters. -/
def parseNatAux (a : Nat) (cs : List Char) : Nat :=
  cs.foldl (fun a c => 10 * a + (c.toNat - 48)) a

/-- Value of a big-endian list of decimal digit characters. -/
def parseNat (cs : List Char) : Nat := parseNatAux 0 cs

/-- Left-pad a digit string with zeros to width `w` (CPython zero-padded
`strftime`/format fields). -/
def padZeros (w : Nat) (cs : List Char) : List Char :=
  List.replicate (w - cs.length) '0' ++ cs

/-- Split a character list into its longest digit-only leading run and the
rest. -/
def spanDigits : List Char → List Char × List Char
  | [] => ([], [])
  | c :: cs =>
    if c.isDigit then
      let p := spanDigits cs
      (c :: p.1, p.2)
    else ([], c :: cs)

theorem digitCh_toNat {d : Nat} (h : d < 10) : (digitCh d).toNat = 48 + d := by
  interval_cases d <;> rfl

theorem digitCh_isDigit {d : Nat} (h : d < 10) : (digitCh d).isDigit = true := by
  interval_cases d <;> rfl

theorem parseNatAux_append (a : Nat) (xs ys : List Char) :
    parseNatAux a (xs ++ ys) = parseNatAux (parseNatAux a xs) ys := by
  simp [parseNatAux, List.foldl_append]

theorem parseNatAux_single (a : Nat) (c : Char) :
    parseNatAux a [c] = 10 * a + (c.toNat - 48) := rfl

theorem parseNatAux_digits (L : List Nat) (h : ∀ d ∈ L, d < 10) :
    ∀ a : Nat, parseNatAux a ((L.map digitCh).reverse) =
      a * 10 ^ L.length + Nat.ofDigits 10 L := by
  induction L with
  | nil => intro a; simp [parseNatAux, Nat.ofDigits]
  | cons d L ih =>
    intro a
    have hd : d < 10 := h d (by simp)
    have hL : ∀ x ∈ L, x < 10 := fun x hx => h x (by simp [hx])
    rw [List.map_cons, List.reverse_cons, parseNatAux_append, ih hL,
      parseNatAux_single, digitCh_toNat hd, Nat.ofDigits_cons]
    have h48 : 48 + d - 48 = d := by omega
    rw [h48, List.length_cons, pow_succ]
    ring

theorem parseNat_renderNat (n : Nat) : parseNat (renderNat n) = n := by
  by_cases h : n = 0
  · subst h; rfl
  · unfold parseNat renderNat
    rw [if_neg h, List.map_reverse,
      parseNatAux_digits _ (fun d hd => Nat.digits_lt_base (by norm_num) hd),
      zero_mul, zero_add, Nat.ofDigits_digits]

theorem renderNat_isDigit (n : Nat) : ∀ c ∈ renderNat n, c.isDigit = true := by
  intro c hc
  unfold renderNat at hc
  by_cases h : n = 0
  · simp [h] at hc; subst hc; rfl
  · rw [if_neg h] at hc
    simp only [List.mem_map, List.mem_reverse] at hc
    obtain ⟨d, hd, rfl⟩ := hc
    exact digitCh_isDigit (Nat.digits_lt_base (by norm_num) hd)

theorem parseNatAux_replicate_zero (k : Nat) :
    ∀ a : Nat, parseNatAux a (List.replicate k '0') = a * 10 ^ k := by
  induction k with
  | zero => intro a; simp [parseNatAux]
  | succ k ih =>
    intro a
    rw [List.replicate_succ]
    have : parseNatAux a ('0' :: List.replicate k '0') =
        parseNatAux (10 * a + ('0'.toNat - 48)) (List.replicate k '0') := rfl
    have h0 : '0'.toNat - 48 = 0 := rfl
    rw [this, ih, h0, pow_succ]
    ring

theorem parseNat_padZeros (w n : Nat) :
    parseNat (padZeros w (renderNat n)) = n := by
  unfold padZeros parseNat
  rw [parseNatAux_append, parseNatAux_replicate_zero, zero_mul]
  exact parseNat_renderNat n

theorem padZeros_isDigit (w : Nat) (cs : List Char)
    (h : ∀ c ∈ cs, c.isDigit = true) :
    ∀ c ∈ padZeros w cs, c.isDigit = true := by
  intro c hc
  rcases List.mem_append.1 hc with h0 | h1
  · rw [List.eq_of_mem_replicate h0]; rfl
  · exact h c h1

theorem spanDigits_cons_not (c : Char) (cs : List Char) (hc : c.isDigit = false) :
    spanDigits (c :: cs) = ([], c :: cs) := by
  simp [spanDigits, hc]

theorem spanDigits_append (ds : List Char) (h : ∀ c ∈ ds, c.isDigit = true)
    (c : Char) (hc : c.isDigit = false) (rest : List Char) :
    spanDigits (ds ++ c :: rest) = (ds, c :: rest) := by
  induction ds with
  | nil => simpa using spanDigits_cons_not c rest hc
  | cons d ds ih =>
    have hd : d.isDigit = true := h d (by simp)
    have hds : ∀ x ∈ ds, x.isDigit = true := fun x hx => h x (by simp [hx])
    simp [spanDigits, hd, ih hds]

theorem spanDigits_all (ds : List Char) (h : ∀ c ∈ ds, c.isDigit = true) :
    spanDigits ds = (ds, []) := by
  induction ds with
  | nil => rfl
  | cons d ds ih =>
    have hd : d.isDigit = true := h d (by simp)
    have hds : ∀ x ∈ ds, x.isDigit = true := fun x hx => h x (by simp [hx])
    simp [spanDigits, hd, ih hds]

theorem renderNat_ne_nil (n : Nat) : renderNat n ≠ [] := by
  unfold renderNat
  split
  · simp
  · simp [Nat.digits_ne_nil_iff_ne_zero.mpr (by assumption)]

theorem padZeros_ne_nil (w : Nat) (cs : List Char) (h : cs ≠ []) :
    padZeros w cs ≠ [] := by
  unfold padZeros
  simp [h]

theorem padZeros_length (w : Nat) (cs : List Char) :
    (padZeros w cs).length = max w cs.length := by
  simp [padZeros]
  omega

/-- Decimal rendering of the float value `m / 10 ^ e`, modelling CPython
`str` of a float: sign, integer digits, decimal point, and at least one
fractional digit (`str(5.0) = "5.0"`).  CPython prints the shortest
decimal string re-parsing to the same value; this rendering may keep
trailing zeros, which never changes the parsed value. -/
def renderFloat (m : Int) (e : Nat) : List Char :=
  let e1 := max e 1
  let ds := padZeros (e1 + 1) (renderNat (m.natAbs * 10 ^ (e1 - e)))
  (if m < 0 then ['-'] else []) ++
    ds.take (ds.length - e1) ++ '.' :: ds.drop (ds.length - e1)

/-- Optional leading sign of a numeric literal. -/
def splitSign (cs : List Char) : Bool × List Char :=
  match cs with
  | [] => (false, [])
  | c :: rest =>
    if c = '-' then (true, rest)
    else if c = '+' then (false, rest)
    else (false, cs)

/-- The plain-decimal core of CPython `float()` applied to a string:
optional sign, integer digits, optional point and fractional digits, with
at least one digit overall and nothing else.  (Exponent, infinity/nan and
surrounding-whitespace forms are not exercised by the claims and are not
modelled.)  The value is returned as a decimal-scaled pair. -/
def parseFloat (cs : List Char) : Option (Int × Nat) :=
  let s := splitSign cs
  let signed : Nat → Int := fun n => if s.1 then -(n : Int) else (n : Int)
  let p := spanDigits s.2
  match p.2 with
  | [] => if p.1.isEmpty then Option.none else some (signed (parseNat p.1), 0)
  | c :: rest2 =>
    if c = '.' then
      let q := spanDigits rest2
      if q.2.isEmpty && (!p.1.isEmpty || !q.1.isEmpty) then
        some (signed (parseNat (p.1 ++ q.1)), q.1.length)
      else Option.none
    else Option.none

/-- Rational value of the decimal-scaled float representation. -/
def floatVal (m : Int) (e : Nat) : ℚ := (m : ℚ) / 10 ^ e

theorem parseFloat_shape (sgn : Bool) (I F : List Char)
    (hIdig : ∀ c ∈ I, c.isDigit = true) (hFdig : ∀ c ∈ F, c.isDigit = true)
    (hIlen : 1 ≤ I.length) (hFlen : 1 ≤ F.length) :
    parseFloat ((if sgn then ['-'] else []) ++ I ++ '.' :: F) =
      some ((if sgn then -(parseNat (I ++ F) : Int) else (parseNat (I ++ F) : Int)),
        F.length) := by
  have hsp : spanDigits (I ++ '.' :: F) = (I, '.' :: F) :=
    spanDigits_append I hIdig '.' rfl F
  have hspF : spanDigits F = (F, []) := spanDigits_all F hFdig
  have hFne : F.isEmpty = false := by
    rcases F with _ | ⟨c, F⟩
    · simp at hFlen
    · rfl
  have hsplit : splitSign ((if sgn then ['-'] else []) ++ I ++ '.' :: F) =
      (sgn, I ++ '.' :: F) := by
    obtain ⟨c, I', hcI⟩ := List.exists_cons_of_ne_nil
      (List.ne_nil_of_length_pos (by omega : 0 < I.length))
    have hcdig : c.isDigit = true := hIdig c (by rw [hcI]; simp)
    have hcm : ¬ c = '-' := fun hcc => by rw [hcc] at hcdig; simp at hcdig
    have hcp : ¬ c = '+' := fun hcc => by rw [hcc] at hcdig; simp at hcdig
    cases sgn with
    | true => simp [splitSign]
    | false => simp only [if_false, List.nil_append, hcI, List.cons_append]
               simp [splitSign, hcm, hcp]
  simp only [parseFloat, hsplit, hsp, hspF, hFne, List.isEmpty_nil,
    Bool.not_false, Bool.or_true, Bool.and_true, parseNatAux]
  simp

theorem parseFloat_renderFloat (m : Int) (e : Nat) :
    parseFloat (renderFloat m e) =
      some (m * 10 ^ (max e 1 - e), max e 1) := by
  have hds : ∀ c ∈ padZeros (max e 1 + 1)
      (renderNat (m.natAbs * 10 ^ (max e 1 - e))), c.isDigit = true :=
    padZeros_isDigit _ _ (renderNat_isDigit _)
  set e1 := max e 1 with he1
  set ds := padZeros (e1 + 1) (renderNat (m.natAbs * 10 ^ (e1 - e))) with hdsdef
  have hlen : e1 + 1 ≤ ds.length := by
    rw [hdsdef, padZeros_length]; omega
  set I := ds.take (ds.length - e1) with hI
  set F := ds.drop (ds.length - e1) with hF
  have hIF : I ++ F = ds := List.take_append_drop _ _
  have hIdig : ∀ c ∈ I, c.isDigit = true := fun c hc =>
    hds c (List.take_subset _ _ hc)
  have hFdig : ∀ c ∈ F, c.isDigit = true := fun c hc =>
    hds c (List.drop_subset _ _ hc)
  have hIlen : 1 ≤ I.length := by
    rw [hI, List.length_take]; omega
  have hFlen : F.length = e1 := by
    rw [hF, List.length_drop]; omega
  have hparse : parseNat (I ++ F) = m.natAbs * 10 ^ (e1 - e) := by
    rw [hIF, hdsdef, parseNat_padZeros]
  have hrf : renderFloat m e =
      (if decide (m < 0) then ['-'] else []) ++ I ++ '.' :: F := by
    simp only [renderFloat, decide_eq_true_eq]
  rw [hrf, parseFloat_shape (decide (m < 0)) I F hIdig hFdig hIlen (by omega),
    hparse, hFlen]
  have hcast : ((m.natAbs * 10 ^ (e1 - e) : Nat) : Int) =
      (m.natAbs : Int) * 10 ^ (e1 - e) := by push_cast; ring
  by_cases hm : m < 0
  · have habs : (m.natAbs : Int) = -m := Int.ofNat_natAbs_of_nonpos (le_of_lt hm)
    simp [hm, hcast, habs]
  · have habs : (m.natAbs : Int) = m := Int.natAbs_of_nonneg (by omega)
    simp [hm, hcast, habs]

theorem floatVal_parse_render (m : Int) (e : Nat) :
    floatVal (m * 10 ^ (max e 1 - e)) (max e 1) = floatVal m e := by
  unfold floatVal
  have he : max e 1 - e + e = max e 1 := by omega
  have h10 : (10 : ℚ) ^ (max e 1 - e) * 10 ^ e = 10 ^ max e 1 := by
    rw [← pow_add, he]
  push_cast
  field_simp
  rw [mul_assoc, h10]

/-- Round-half-to-even on rationals (the rounding rule of CPython
`round`). -/
def roundHalfEven (q : ℚ) : Int :=
  let f := ⌊q⌋
  let r := q - (f : ℚ)
  if r < 1 / 2 then f
  else if 1 / 2 < r then f + 1
  else if Even f then f else f + 1

theorem roundHalfEven_intCast (k : Int) : roundHalfEven (k : ℚ) = k := by
  unfold roundHalfEven
  rw [Int.floor_intCast]
  norm_num

/-- Gregorian leap-year rule (as used by `datetime.date`). -/
def isLeap (y : Nat) : Bool :=
  (y % 4 == 0 && !(y % 100 == 0)) || y % 400 == 0

/-- Number of days in a month (as used by `datetime.date`). -/
def daysInMonth (y mo : Nat) : Nat :=
  if mo = 2 then (if isLeap y then 29 else 28)
  else if mo = 4 ∨ mo = 6 ∨ mo = 9 ∨ mo = 11 then 30
  else 31

/-- The component ranges enforced by the `datetime.datetime` constructor
(and re-checked by `strptime` when building the parsed value). -/
def ValidDT (dt : DateTime) : Prop :=
  1 ≤ dt.year ∧ dt.year ≤ 9999 ∧ 1 ≤ dt.month ∧ dt.month ≤ 12 ∧
  1 ≤ dt.day ∧ dt.day ≤ daysInMonth dt.year dt.month ∧
  dt.hour ≤ 23 ∧ dt.minute ≤ 59 ∧ dt.second ≤ 59 ∧ dt.microsecond ≤ 999999

instance (dt : DateTime) : Decidable (ValidDT dt) := by
  unfold ValidDT; infer_instance

/-- CPython `strftime` with the `Datetime` field's default format
`'%d/%m/%Y %H:%M:%S'`: zero-padded day, month (2 digits), year
(4 digits on this platform), hour, minute and second.  Sub-second
components are not part of the format and are dropped. -/
def renderDT (dt : DateTime) : List Char :=
  padZeros 2 (renderNat dt.day) ++ '/' ::
    (padZeros 2 (renderNat dt.month) ++ '/' ::
      (padZeros 4 (renderNat dt.year) ++ ' ' ::
        (padZeros 2 (renderNat dt.hour) ++ ':' ::
          (padZeros 2 (renderNat dt.minute) ++ ':' ::
            padZeros 2 (renderNat dt.second)))))

/-- Consume one expected literal character. -/
def expectCh (c : Char) : List Char → Option (List Char)
  | [] => Option.none
  | x :: rest => if x = c then some rest else Option.none

/-- CPython `datetime.strptime` at the `Datetime` field's default format
`'%d/%m/%Y %H:%M:%S'`: digit runs separated by the literal separators,
followed by the `datetime` constructor's range validation; the parsed
value has microsecond 0.  (The per-directive digit-width caps of
`strptime` are not modelled; the rendering side always emits the padded
widths.) -/
def parseDT (cs : List Char) : Option DateTime :=
  let pd := spanDigits cs
  match expectCh '/' pd.2 with
  | Option.none => Option.none
  | some r1 =>
    let pmo := spanDigits r1
    match expectCh '/' pmo.2 with
    | Option.none => Option.none
    | some r2 =>
      let py := spanDigits r2
      match expectCh ' ' py.2 with
      | Option.none => Option.none
      | some r3 =>
        let ph := spanDigits r3
        match expectCh ':' ph.2 with
        | Option.none => Option.none
        | some r4 =>
          let pmi := spanDigits r4
          match expectCh ':' pmi.2 with
          | Option.none => Option.none
          | some r5 =>
            let ps := spanDigits r5
            if ps.2.isEmpty && !pd.1.isEmpty && !pmo.1.isEmpty && !py.1.isEmpty
                && !ph.1.isEmpty && !pmi.1.isEmpty && !ps.1.isEmpty then
              let dt : DateTime := ⟨parseNat py.1, parseNat pmo.1, parseNat pd.1,
                parseNat ph.1, parseNat pmi.1, parseNat ps.1, 0⟩
              if ValidDT dt then some dt else Option.none
            else Option.none

theorem spanDigits_pad (w n : Nat) (c : Char) (hc : c.isDigit = false)
    (rest : List Char) :
    spanDigits (padZeros w (renderNat n) ++ c :: rest) =
      (padZeros w (renderNat n), c :: rest) :=
  spanDigits_append _ (padZeros_isDigit _ _ (renderNat_isDigit n)) c hc rest

theorem padZeros_renderNat_isEmpty (w n : Nat) :
    (padZeros w (renderNat n)).isEmpty = false := by
  have h := padZeros_ne_nil w (renderNat n) (renderNat_ne_nil n)
  rcases hp : padZeros w (renderNat n) with _ | ⟨c, cs⟩
  · exact absurd hp h
  · rfl

theorem parseDT_renderDT (dt : DateTime) (hv : ValidDT dt)
    (h0 : dt.microsecond = 0) : parseDT (renderDT dt) = some dt := by
  obtain ⟨y, mo, d, hh, mi, s, us⟩ := dt
  simp only at h0
  subst h0
  have hslash : ('/').isDigit = false := rfl
  have hspace : (' ').isDigit = false := rfl
  have hcolon : (':').isDigit = false := rfl
  simp only [renderDT, parseDT,
    spanDigits_pad _ _ _ hslash, spanDigits_pad _ _ _ hspace,
    spanDigits_pad _ _ _ hcolon,
    spanDigits_all _ (padZeros_isDigit _ _ (renderNat_isDigit _)),
    expectCh, if_pos rfl, if_true, List.isEmpty_nil, padZeros_renderNat_isEmpty,
    Bool.not_false, Bool.and_true, Bool.true_and, Bool.and_self,
    parseNat_padZeros]
  rw [if_pos hv]

/-- CPython `str` of a `datetime` value (ISO-like separator form). -/
def pyStrDT (dt : DateTime) : List Char :=
  padZeros 4 (renderNat dt.year) ++ '-' ::
    (padZeros 2 (renderNat dt.month) ++ '-' ::
      (padZeros 2 (renderNat dt.day) ++ ' ' ::
        (padZeros 2 (renderNat dt.hour) ++ ':' ::
          (padZeros 2 (renderNat dt.minute) ++ ':' ::
            (padZeros 2 (renderNat dt.second) ++
              (if dt.microsecond = 0 then []
               else '.' :: padZeros 6 (renderNat dt.microsecond)))))))

mutual

/-- CPython `str()` over the modelled values.  For enum members CPython
prints the member qualified by its class name, which is not tracked, so a
fixed qualifier is used; no claim inspects that text. -/
def pyStr : Prim → String
  | .none => "None"
  | .str s => s
  | .int n => ⟨renderInt n⟩
  | .bool b => if b then "True" else "False"
  | .float m e => ⟨renderFloat m e⟩
  | .datetime dt => ⟨pyStrDT dt⟩
  | .enumMember n => "Enum." ++ n
  | .list items => "[" ++ sepPrims items ++ "]"
  | .map entries => "\x7b" ++ sepEntries entries ++ "\x7d"
termination_by v => (sizeOf v, 0)

/-- CPython `repr()`: strings are quoted; other values as `str()`
(the `datetime` constructor-style repr is not needed by any claim). -/
def pyRepr : Prim → String
  | .str s => "\x27" ++ s ++ "\x27"
  | v => pyStr v
termination_by v => (sizeOf v, 1)

def sepPrims : List Prim → String
  | [] => ""
  | [x] => pyRepr x
  | x :: xs => pyRepr x ++ ", " ++ sepPrims xs
termination_by l => (sizeOf l, 2)

def sepEntries : List (String × Prim) → String
  | [] => ""
  | [(k, v)] => "\x27" ++ k ++ "\x27: " ++ pyRepr v
  | (k, v) :: rest => "\x27" ++ k ++ "\x27: " ++ pyRepr v ++ ", " ++ sepEntries rest
termination_by l => (sizeOf l, 2)

end

/-- Numeric value of a Python number (`int`, `bool` and `float` compare
numerically under `==`). -/
def numVal : Prim → Option ℚ
  | .int n => some (n : ℚ)
  | .bool b => some (if b then 1 else 0)
  | .float m e => some (floatVal m e)
  | _ => Option.none

mutual

/-- CPython `==` over the modelled values.  Numbers compare by numeric
value across `int`/`bool`/`float`; dict equality is modelled pointwise in
entry order (CPython dict equality ignores order, but no claim compares
dicts with reordered keys). -/
def pyEq (a b : Prim) : Bool :=
  match numVal a, numVal b with
  | some x, some y => decide (x = y)
  | _, _ =>
    match a with
    | .none => match b with | .none => true | _ => false
    | .str x => match b with | .str y => x == y | _ => false
    | .datetime x => match b with | .datetime y => decide (x = y) | _ => false
    | .enumMember x => match b with | .enumMember y => x == y | _ => false
    | .list xs => match b with | .list ys => pyEqList xs ys | _ => false
    | .map xs => match b with | .map ys => pyEqEntries xs ys | _ => false
    | _ => false

def pyEqList : List Prim → List Prim → Bool
  | [], [] => true
  | x :: xs, y :: ys => pyEq x y && pyEqList xs ys
  | _, _ => false

def pyEqEntries : List (String × Prim) → List (String × Prim) → Bool
  | [], [] => true
  | kv :: xs, kw :: ys => kv.1 == kw.1 && pyEq kv.2 kw.2 && pyEqEntries xs ys
  | _, _ => false

end

/-- Python `str.lower` over the modelled strings: each character
lowercased (ASCII case mapping; the claims exercise only ASCII). -/
def strLower (s : String) : String := ⟨s.data.map Char.toLower⟩

/-- `distutils.util.strtobool`: the case-insensitive truthy/falsy token
sets, returning the CPython `int` 1 or 0 (not a `bool`). -/
def strtobool (s : String) : Option Nat :=
  let v := strLower s
  if v = "y" ∨ v = "yes" ∨ v = "t" ∨ v = "true" ∨ v = "on" ∨ v = "1" then some 1
  else if v = "n" ∨ v = "no" ∨ v = "f" ∨ v = "false" ∨ v = "off" ∨ v = "0" then
    some 0
  else Option.none

/-- The sign-and-digits core of CPython `int()` on a string (surrounding
whitespace and underscore separators are not exercised by the claims and
are not modelled). -/
def parseIntChars (cs : List Char) : Option Int :=
  let s := splitSign cs
  if s.2 ≠ [] ∧ s.2.all Char.isDigit then
    some (if s.1 then -(parseNat s.2 : Int) else (parseNat s.2 : Int))
  else Option.none

/-- CPython `int(value)`: identity on ints, 0/1 on bools, truncation
toward zero on floats, strict decimal parse on strings; everything else
raises `TypeError`/`ValueError` (modelled as `none`). -/
def pyInt : Prim → Option Int
  | .int n => some n
  | .bool b => some (if b then 1 else 0)
  | .float m e => some (m.sign * ((m.natAbs / 10 ^ e : Nat) : Int))
  | .str s => parseIntChars s.data
  | _ => Option.none

/-- CPython `float(value)`: identity on floats, exact on ints and bools,
decimal parse on strings; everything else raises (modelled as `none`). -/
def pyFloat : Prim → Option (Int × Nat)
  | .int n => some (n, 0)
  | .bool b => some (if b then 1 else 0, 0)
  | .float m e => some (m, e)
  | .str s => parseFloat s.data
  | _ => Option.none

/-- Truthiness of `re.Pattern.match(s)`: CPython `match` anchors at the
start of the string but not at its end, so it succeeds exactly when some
prefix of `s` is in the pattern's language.  The compiled pattern is
modelled by a regular-expression AST with standard language semantics. -/
def pythonMatch (P : RegularExpression Char) (s : List Char) : Bool :=
  s.inits.any fun p => P.rmatch p

theorem pythonMatch_iff (P : RegularExpression Char) (s : List Char) :
    pythonMatch P s = true ↔ ∃ p q, s = p ++ q ∧ p ∈ P.matches' := by
  unfold pythonMatch
  rw [List.any_eq_true]
  constructor
  · rintro ⟨p, hp, hm⟩
    rw [List.mem_inits] at hp
    obtain ⟨q, hq⟩ := hp
    exact ⟨p, q, hq.symm, (RegularExpression.rmatch_iff_matches' P p).1 hm⟩
  · rintro ⟨p, q, hs, hm⟩
    refine ⟨p, ?_, (RegularExpression.rmatch_iff_matches' P p).2 hm⟩
    rw [List.mem_inits]
    exact ⟨q, hs.symm⟩

/-!
The error hierarchy of schema.py.  `BVError` models
`BaseValidationError`: constructor `validation` is `ValidationError`
(a bare reason string), `fieldErr` is `FieldValidationError` (field name
plus an arbitrary reason value, which for `Related` fields is a nested
serialized error structure), and `deser` is `DeserializationError`
(an ordered aggregate).  Raising an error is modelled with `Except`.
-/
inductive BVError where
  | validation (reason : String)
  | fieldErr (fieldName : String) (reason : Prim)
  | deser (errors : List BVError)
deriving Repr

/-- The `serialized` property of each error class. -/
def BVError.serialized : BVError → Prim
  | .validation r => .map [("error", .str r)]
  | .fieldErr n r => .map [("field", .str n), ("error", r)]
  | .deser es => .map [("errors", .list (es.attach.map fun e => e.1.serialized))]
termination_by e => sizeOf e
decreasing_by
  have := List.sizeOf_lt_of_mem e.2
  simp_wf
  omega

/-- One declared field's common configuration (the keyword arguments read
by `Field.__init__`, with the same defaults).  `name`, `display_name` and
`source` start unset (`None`) until `update_name` resolves them;
`default := none` models the `NO_DEFAULT_MARKER` sentinel, while
`some v` is a configured default (which may itself be the null value). -/
structure FieldFlags where
  name : Option String := Option.none
  display_name : Option String := Option.none
  required : Bool := true
  read_only : Bool := false
  write_only : Bool := false
  default : Option Prim := Option.none
  unbound : Bool := false
  source : Option String := Option.none
  deserialize_none : Bool := false
deriving Repr

/-- Python string formatting of a possibly-unset name (`None` prints as
"None"). -/
def FieldFlags.fname (fl : FieldFlags) : String := fl.name.getD "None"

def FieldFlags.fsource (fl : FieldFlags) : String := fl.source.getD "None"

/-- The field types of fields.py that the claims exercise.  Scalar
constructor arguments mirror each class's own keyword arguments; `list`,
`related` and `coalesce` are the composite fields (a `CoalesceField` is
constructed from a sequence of fields; the modelled constructor keeps it
nonempty, since CPython's `fields[-1]` crashes with an uncaught
`IndexError` on an empty sequence). -/
inductive Field where
  | integer (flags : FieldFlags) (min max : Option Int)
  | float (flags : FieldFlags) (min max : Option ℚ) (max_precision : Option Nat)
  | bool (flags : FieldFlags)
  | text (flags : FieldFlags) (min max : Option Nat)
      (pattern : Option (RegularExpression Char))
  | enum (flags : FieldFlags) (members : List String) (soft_match : Bool)
  | multiChoice (flags : FieldFlags) (choices : List String) (soft_match : Bool)
  | datetime (flags : FieldFlags)
  | list (flags : FieldFlags) (child : Field)
  | related (flags : FieldFlags) (schema : List Field)
  | coalesce (flags : FieldFlags) (child0 : Field) (children : List Field)

/-- The shared flags of a field. -/
def Field.flags : Field → FieldFlags
  | .integer fl _ _ => fl
  | .float fl _ _ _ => fl
  | .bool fl => fl
  | .text fl _ _ _ => fl
  | .enum fl _ _ => fl
  | .multiChoice fl _ _ => fl
  | .datetime fl => fl
  | .list fl _ => fl
  | .related fl _ => fl
  | .coalesce fl _ _ => fl

/-- Python `str.capitalize`: first character uppercased, the rest
lowercased. -/
def capitalizeWord (s : String) : String :=
  match s.data with
  | [] => ""
  | c :: cs => ⟨c.toUpper :: (cs.map Char.toLower)⟩

/-- Python `str.split(sep)` for a one-character separator, over the
character list. -/
def splitOnChar (c : Char) : List Char → List (List Char)
  | [] => [[]]
  | x :: xs =>
    match splitOnChar c xs with
    | [] => [[]]
    | g :: gs => if x = c then [] :: g :: gs else (x :: g) :: gs

/-- Python `sep.join(parts)`. -/
def joinWith (sep : String) : List String → String
  | [] => ""
  | [x] => x
  | x :: xs => x ++ sep ++ joinWith sep xs

/-- The display name derived by `Field.update_name`: split the name on
underscores, capitalize each part, join with spaces. -/
def deriveDisplay (n : String) : String :=
  joinWith " " ((splitOnChar '_' n.data).map fun w => capitalizeWord ⟨w⟩)

/-- `Field.update_name` on the flags: resolve `name` from the declaration
key if unset, derive `display_name` if unset, default `source` to the
resolved name if unset. -/
def FieldFlags.resolve (fl : FieldFlags) (key : String) : FieldFlags :=
  let n := match fl.name with
    | some s => s
    | Option.none => key
  { fl with
    name := some n
    display_name := match fl.display_name with
      | some s => some s
      | Option.none => some (deriveDisplay n)
    source := match fl.source with
      | some s => some s
      | Option.none => some n }

/-- `update_name`, including the forwarding that `List.update_name` and
`CoalesceField.update_name` perform to their child fields (children share
the parent's resolved name). -/
def Field.update_name : Field → String → Field
  | .integer fl a b, key => .integer (fl.resolve key) a b
  | .float fl a b c, key => .float (fl.resolve key) a b c
  | .bool fl, key => .bool (fl.resolve key)
  | .text fl a b p, key => .text (fl.resolve key) a b p
  | .enum fl ms sm, key => .enum (fl.resolve key) ms sm
  | .multiChoice fl cs sm, key => .multiChoice (fl.resolve key) cs sm
  | .datetime fl, key => .datetime (fl.resolve key)
  | .list fl child, key =>
    let fl' := fl.resolve key
    .list fl' (child.update_name fl'.fname)
  | .related fl schema, key => .related (fl.resolve key) schema
  | .coalesce fl c0 cs, key =>
    let fl' := fl.resolve key
    .coalesce fl' (c0.update_name fl'.fname)
      (cs.attach.map fun c => c.1.update_name fl'.fname)
termination_by f _ => sizeOf f
decreasing_by
  all_goals simp_wf
  all_goals try omega
  all_goals (have hcm := List.sizeOf_lt_of_mem c.2; omega)

/-- Insertion into an insertion-ordered string-keyed map (the
`IndexedOrderedDict`/CPython-dict update rule): an existing key keeps its
position and gets the new value; a new key is appended at the end. -/
def iodInsert {α : Type} (l : List (String × α)) (k : String) (v : α) :
    List (String × α) :=
  if l.any fun p => p.1 = k then
    l.map fun p => if p.1 = k then (k, v) else p
  else l ++ [(k, v)]

/-- First-match lookup in a string-keyed association list (CPython
`dict.get`; dict keys are unique, so first-match agrees with it). -/
def lookupPrim {α : Type} : List (String × α) → String → Option α
  | [], _ => Option.none
  | (k, v) :: rest, key => if k = key then some v else lookupPrim rest key

/-- The error reason `'invalid value "{}"'.format(value)`. -/
def invalidMsg (s : String) : String := "invalid value \"" ++ s ++ "\""

/-- The error reason `'missing required value "{}"'`. -/
def missingMsg (n : String) : String :=
  "missing required value \"" ++ n ++ "\""

def optIntStr : Option Int → String
  | some n => ⟨renderInt n⟩
  | Option.none => "None"

def optNatStr : Option Nat → String
  | some n => ⟨renderNat n⟩
  | Option.none => "None"

/-- Formatting of a float configuration bound inside an error message
(CPython's shortest-float repr is not reproduced; no claim inspects these
texts). -/
def optRatStr : Option ℚ → String
  | some q => ⟨renderInt q.num⟩ ++ "/" ++ ⟨renderNat q.den⟩
  | Option.none => "None"

/-- The error reason
`'invalid value "{}": not in allowed range({} - {})'`. -/
def rangeMsg (value lo hi : String) : String :=
  "invalid value \"" ++ value ++ "\": not in allowed range(" ++ lo ++ " - " ++
    hi ++ ")"

/-- `Integer.deserialize`: `int(value)`, then the inclusive `min`/`max`
range check. -/
def integerDeserialize (fl : FieldFlags) (mn mx : Option Int) (v : Prim) :
    Except BVError Prim :=
  match pyInt v with
  | Option.none => .error (.fieldErr fl.fname (.str (invalidMsg (pyStr v))))
  | some n =>
    if (mn.any fun a => decide (n < a)) || (mx.any fun b => decide (b < n)) then
      .error (.fieldErr fl.fname
        (.str (rangeMsg ⟨renderInt n⟩ (optIntStr mn) (optIntStr mx))))
    else .ok (.int n)

/-- `Float.deserialize`: `float(value)`, then the inclusive `min`/`max`
range check (float comparisons are exact rational comparisons). -/
def floatDeserialize (fl : FieldFlags) (mn mx : Option ℚ) (v : Prim) :
    Except BVError Prim :=
  match pyFloat v with
  | Option.none => .error (.fieldErr fl.fname (.str (invalidMsg (pyStr v))))
  | some (m, e) =>
    if (mn.any fun a => decide (floatVal m e < a)) ||
        (mx.any fun b => decide (b < floatVal m e)) then
      .error (.fieldErr fl.fname
        (.str (rangeMsg ⟨renderFloat m e⟩ (optRatStr mn) (optRatStr mx))))
    else .ok (.float m e)

/-- `Bool.deserialize`: `strtobool(str(value))`, which returns the
CPython int 1 or 0. -/
def boolDeserialize (fl : FieldFlags) (v : Prim) : Except BVError Prim :=
  match strtobool (pyStr v) with
  | some n => .ok (.int (n : Int))
  | Option.none => .error (.fieldErr fl.fname (.str (invalidMsg (pyStr v))))

/-- `Text.deserialize`: reject null, coerce with `str`, check the length
range, then require `pattern.match` (anchored at the start only) when a
pattern is configured.  The pattern-mismatch message embeds CPython's
repr of the compiled pattern, which is not reproduced. -/
def textDeserialize (fl : FieldFlags) (mn mx : Option Nat)
    (pattern : Option (RegularExpression Char)) (v : Prim) :
    Except BVError Prim :=
  if v.isNone then .error (.fieldErr fl.fname (.str (invalidMsg (pyStr v))))
  else
    let s := pyStr v
    if (mn.any fun a => decide (s.length < a)) ||
        (mx.any fun b => decide (b < s.length)) then
      .error (.fieldErr fl.fname
        (.str (rangeMsg ⟨renderNat s.length⟩ (optNatStr mn) (optNatStr mx))))
    else if (match pattern with
             | some P => !(pythonMatch P s.data)
             | Option.none => false) then
      .error (.fieldErr fl.fname
        (.str ("Value \"" ++ s ++ "\" does not match pattern")))
    else .ok (.str s)

/-- `Enum.deserialize`: exact member-name lookup; on `KeyError`, when
`soft_match` is set, a case-insensitive substring search over the member
names that succeeds only with exactly one candidate.  (Note the raised
message uses the lowercased value when the soft-match path ran, as in the
source.) -/
def enumDeserialize (fl : FieldFlags) (members : List String) (sm : Bool)
    (v : Prim) : Except BVError Prim :=
  let s := pyStr v
  if members.contains s then .ok (.enumMember s)
  else if sm then
    let lowered := strLower s
    let options := members.filter fun n =>
      decide (lowered.data <:+: (strLower n).data)
    match options with
    | [o] => .ok (.enumMember o)
    | _ => .error (.fieldErr fl.fname (.str (invalidMsg lowered)))
  else .error (.fieldErr fl.fname (.str (invalidMsg s)))

/-- `MultiChoiceField.deserialize`: the same exact-then-unique-substring
rule over a plain string choice set, returning the stored choice
string. -/
def multiChoiceDeserialize (fl : FieldFlags) (choices : List String) (sm : Bool)
    (v : Prim) : Except BVError Prim :=
  let s := pyStr v
  if choices.contains s then .ok (.str s)
  else if sm then
    let lowered := strLower s
    let options := choices.filter fun n =>
      decide (lowered.data <:+: (strLower n).data)
    match options with
    | [o] => .ok (.str o)
    | _ => .error (.fieldErr fl.fname (.str (invalidMsg lowered)))
  else .error (.fieldErr fl.fname (.str (invalidMsg s)))

/-- `Datetime.deserialize`: `strptime` at the field's default format;
non-string input raises `TypeError`, caught and converted like a parse
failure. -/
def datetimeDeserialize (fl : FieldFlags) (v : Prim) : Except BVError Prim :=
  match v with
  | .str s =>
    match parseDT s.data with
    | some dt => .ok (.datetime dt)
    | Option.none => .error (.fieldErr fl.fname (.str (invalidMsg (pyStr v))))
  | _ => .error (.fieldErr fl.fname (.str (invalidMsg (pyStr v))))

/-- CPython iteration over a value (`isinstance(value, Iterable)` plus
`for item in value`): lists yield their elements, dicts yield their keys,
strings yield their characters; the other modelled values are not
iterable. -/
def iterPrim : Prim → Option (List Prim)
  | .list items => some items
  | .map entries => some (entries.map fun kv => Prim.str kv.1)
  | .str s => some (s.data.map fun c => Prim.str ⟨[c]⟩)
  | _ => Option.none

theorem one_le_sizeOf_flags (fl : FieldFlags) : 1 ≤ sizeOf fl := by
  cases fl
  simp only [FieldFlags.mk.sizeOf_spec]
  omega

theorem one_le_sizeOf_list {α : Type} [SizeOf α] (l : List α) : 1 ≤ sizeOf l := by
  cases l <;> simp_arith

mutual

/-- `Field.deserialize` for every modelled field type (fields.py).
Raising a validation error is modelled by `Except.error`.  In the
`related` case the body of `Schema.deserialize_raw` is written inline to
close the recursive knot; the standalone `deserialize_raw` defined below
is this same code, and the equation relating them is proved as
`deserializeField_related`. -/
def deserializeField : Field → Prim → Except BVError Prim
  | .integer fl mn mx, v => integerDeserialize fl mn mx v
  | .float fl mn mx _, v => floatDeserialize fl mn mx v
  | .bool fl, v => boolDeserialize fl v
  | .text fl mn mx pat, v => textDeserialize fl mn mx pat v
  | .enum fl ms sm, v => enumDeserialize fl ms sm v
  | .multiChoice fl cs sm, v => multiChoiceDeserialize fl cs sm v
  | .datetime fl, v => datetimeDeserialize fl v
  | .list fl child, v =>
    match v with
    | .str _ => .error (.fieldErr fl.fname (.str "Expected list"))
    | _ =>
      match iterPrim v with
      | Option.none => .error (.fieldErr fl.fname (.str "Expected list"))
      | some items =>
        match deserializeElems child items with
        | .ok rs => .ok (.list rs)
        | .error e => .error e
  | .related fl schema, v =>
    match
      ((match v with
        | .map entries =>
          match runFields schema entries [] [] with
          | (errors, values) =>
            if errors.isEmpty then Except.ok values
            else Except.error (.deser errors)
        | _ => Except.error (.deser [.validation "invalid input format"])) :
        Except BVError (List (String × Prim))) with
    | .ok vals => .ok (.map vals)
    | .error e => .error (.fieldErr fl.fname e.serialized)
  | .coalesce fl c0 cs, v => coalesceGo c0 cs v
termination_by f _ => (sizeOf f, 0)
decreasing_by
  all_goals (have hfl := one_le_sizeOf_flags fl; decreasing_tactic)

/-- The element-wise list comprehension of `List.deserialize`: the first
failing element's error propagates. -/
def deserializeElems (child : Field) : List Prim → Except BVError (List Prim)
  | [] => .ok []
  | x :: xs =>
    match deserializeField child x with
    | .error e => .error e
    | .ok r =>
      match deserializeElems child xs with
      | .error e => .error e
      | .ok rs => .ok (r :: rs)
termination_by l => (sizeOf child + 1, sizeOf l)

/-- The loop of `CoalesceField.deserialize` over `fields[:-1]` followed
by `fields[-1]`, phrased over a nonempty list: every field before the
last is tried, catching only `FieldValidationError`; the last field's
result is authoritative. -/
def coalesceGo (c : Field) (rest : List Field) (v : Prim) :
    Except BVError Prim :=
  match rest with
  | [] => deserializeField c v
  | c2 :: rest2 =>
    match deserializeField c v with
    | .ok r => .ok r
    | .error (.fieldErr _ _) => coalesceGo c2 rest2 v
    | .error e => .error e
termination_by (sizeOf c + sizeOf rest, 0)

/-- The per-field loop of `deserialize_raw`, threading the collected
errors and values in field order.  The loop body (the standalone
`stepField`/`procValue` below) is written inline here to keep the
recursive knot small; `runFields_cons` proves the equation relating
them. -/
def runFields (fields : List Field) (entries : List (String × Prim))
    (errors : List BVError) (values : List (String × Prim)) :
    List BVError × List (String × Prim) :=
  match fields with
  | [] => (errors, values)
  | f :: rest =>
    let procV : Prim → List BVError × List (String × Prim) := fun value =>
      if value.isNone && !f.flags.deserialize_none then
        (errors, iodInsert values f.flags.fsource Prim.none)
      else
        match deserializeField f value with
        | .ok r => (errors, iodInsert values f.flags.fsource r)
        | .error e => (errors ++ [e], values)
    let acc :=
      if f.flags.read_only then (errors, values)
      else
        let value := (lookupPrim entries f.flags.fname).getD Prim.none
        if value.isNone then
          match f.flags.default with
          | some d => procV d
          | Option.none =>
            if f.flags.required then
              (errors ++ [.fieldErr f.flags.fname
                (.str (missingMsg f.flags.fname))], values)
            else (errors, values)
        else procV value
    runFields rest entries acc.1 acc.2
termination_by (sizeOf fields, 1)
decreasing_by
  all_goals (have hl := one_le_sizeOf_list rest2; decreasing_tactic)

end

/-- `Schema.deserialize_raw`: non-mapping input fails with a single plain
error wrapped in the aggregate; otherwise every field is processed and,
when any errors were collected, one aggregate `DeserializationError`
carrying all of them is raised. -/
def deserialize_raw (fields : List Field) (input : Prim) :
    Except BVError (List (String × Prim)) :=
  match input with
  | .map entries =>
    match runFields fields entries [] [] with
    | (errors, values) =>
      if errors.isEmpty then .ok values else .error (.deser errors)
  | _ => .error (.deser [.validation "invalid input format"])

/-- The try-block of the `deserialize_raw` loop: a null value is stored
as null without invoking the field's deserialize unless
`deserialize_none` is set; otherwise the field's deserialize runs, a
success is stored under `field.source`, and a raised
`BaseValidationError` is appended to the collected errors. -/
def procValue (f : Field) (value : Prim) (errors : List BVError)
    (values : List (String × Prim)) : List BVError × List (String × Prim) :=
  if value.isNone && !f.flags.deserialize_none then
    (errors, iodInsert values f.flags.fsource Prim.none)
  else
    match deserializeField f value with
    | .ok r => (errors, iodInsert values f.flags.fsource r)
    | .error e => (errors ++ [e], values)

/-- One iteration of the `deserialize_raw` loop: skip read-only fields;
read the value by name with `dict.get` (an absent key and an explicit
null both read as null); a null value resolves through the
default/required logic; otherwise the value (possibly a substituted
default) proceeds to the try-block. -/
def stepField (f : Field) (entries : List (String × Prim))
    (errors : List BVError) (values : List (String × Prim)) :
    List BVError × List (String × Prim) :=
  if f.flags.read_only then (errors, values)
  else
    let value := (lookupPrim entries f.flags.fname).getD Prim.none
    if value.isNone then
      match f.flags.default with
      | some d => procValue f d errors values
      | Option.none =>
        if f.flags.required then
          (errors ++ [.fieldErr f.flags.fname (.str (missingMsg f.flags.fname))],
            values)
        else (errors, values)
    else procValue f value errors values

theorem runFields_cons (f : Field) (rest : List Field)
    (entries : List (String × Prim)) (errors : List BVError)
    (values : List (String × Prim)) :
    runFields (f :: rest) entries errors values =
      runFields rest entries (stepField f entries errors values).1
        (stepField f entries errors values).2 := by
  rw [runFields]
  unfold stepField procValue
  rfl

theorem deserializeField_related (fl : FieldFlags) (schema : List Field)
    (v : Prim) :
    deserializeField (.related fl schema) v =
      match deserialize_raw schema v with
      | .ok vals => .ok (.map vals)
      | .error e => .error (.fieldErr fl.fname e.serialized) := by
  cases v
  all_goals (rw [deserializeField]; unfold deserialize_raw)
  all_goals first
    | rfl
    | (intro entries he; cases he)

/-- `getattr(instance, source)`: domain instances are modelled as
attribute maps.  (A genuinely missing attribute raises `AttributeError`
in CPython; no claim exercises that, and it is modelled as null.) -/
def pyGetattr (inst : Prim) (attr : String) : Prim :=
  match inst with
  | .map m => (lookupPrim m attr).getD Prim.none
  | _ => Prim.none

mutual

/-- `Field.serialize(value, instance, schema)` for the modelled field
types.  The base-class default is the identity; `Float`, `Enum`,
`Datetime`, `List`, `Related` and `CoalesceField` override it.  Branches
that CPython would leave to an uncaught defect (`TypeError` /
`AttributeError` on a value of the wrong shape, outside every claim) are
modelled as null, except `Datetime`, whose own except-clause genuinely
returns `None` for a value without `strftime`. -/
def serializeField : Field → Prim → Prim → Prim
  | .integer _ _ _, v, _ => v
  | .bool _, v, _ => v
  | .text _ _ _ _, v, _ => v
  | .multiChoice _ _ _, v, _ => v
  | .float _ _ _ mp, v, _ =>
    match mp with
    | Option.none => .str (pyStr v)
    | some p =>
      match v with
      | .float m e => .str ⟨renderFloat (roundHalfEven (floatVal m e * 10 ^ p)) p⟩
      | .int n => .str ⟨renderInt n⟩
      | _ => Prim.none
  | .enum _ _ _, v, _ =>
    match v with
    | .enumMember n => .str n
    | _ => Prim.none
  | .datetime _, v, _ =>
    match v with
    | .datetime dt => .str ⟨renderDT dt⟩
    | _ => Prim.none
  | .list fl child, v, inst =>
    match iterPrim v with
    | some items => .list (serializeElems child items inst)
    | Option.none => Prim.none
  | .related fl schema, v, _ => .map (schemaSerialize schema v)
  | .coalesce fl c0 _, v, inst => serializeField c0 v inst
termination_by f _ _ => (sizeOf f, 0)
decreasing_by
  all_goals (have hfl := one_le_sizeOf_flags fl; decreasing_tactic)

/-- The element-wise list comprehension of `List.serialize`. -/
def serializeElems (child : Field) (items : List Prim) (inst : Prim) :
    List Prim :=
  match items with
  | [] => []
  | x :: xs => serializeField child x inst :: serializeElems child xs inst
termination_by (sizeOf child + 1, sizeOf items)

/-- `Schema.serialize(instance)`: every field not marked write-only
contributes `extract(instance)` keyed by `field.name`, in field order. -/
def schemaSerialize (fields : List Field) (inst : Prim) :
    List (String × Prim) :=
  match fields with
  | [] => []
  | f :: rest =>
    if f.flags.write_only then schemaSerialize rest inst
    else (f.flags.fname, extractField f inst) :: schemaSerialize rest inst
termination_by (sizeOf fields, 1)
decreasing_by
  all_goals (have hl := one_le_sizeOf_list rest2; decreasing_tactic)

/-- `Field.extract`: unbound fields serialize null (computing their own
value from the instance); bound fields serialize
`getattr(instance, source)`. -/
def extractField (f : Field) (inst : Prim) : Prim :=
  if f.flags.unbound then serializeField f Prim.none inst
  else serializeField f (pyGetattr inst f.flags.fsource) inst
termination_by (sizeOf f, 1)

end

/-!  SchemaMeta registration (schema.py `SchemaMeta.__new__`). -/

/-- The seeding pass: every base class's resolved field collection is
copied into a fresh ordered collection, iterating the bases in reversed
declaration order, so an earlier-declared base's same-named field
overwrites a later one's value while keeping the first-seeded position
(`copy.copy` of a field is the identity in this value model). -/
def seedBases (bases : List (List (String × Field))) : List (String × Field) :=
  bases.reverse.foldl
    (fun acc base => base.foldl (fun a kv => iodInsert a kv.1 kv.2) acc) []

/-- The attribute pass: each field declared in the class body gets
`update_name(key)` and is inserted under its resolved name (a new name
appends at the end; an existing name overwrites in place). -/
def addAttrs (seeded : List (String × Field)) (attrs : List (String × Field)) :
    List (String × Field) :=
  attrs.foldl
    (fun a kv =>
      let fld := kv.2.update_name kv.1
      iodInsert a fld.flags.fname fld) seeded

/-- The complete field collection built by `SchemaMeta.__new__`:
ancestor fields seeded first, then this level's own declarations. -/
def schemaFields (bases : List (List (String × Field)))
    (attrs : List (String × Field)) : List (String × Field) :=
  addAttrs (seedBases bases) attrs

/-!  A declarative per-field characterization of the `deserialize_raw`
loop: what each field contributes, computed from the input alone. -/

/-- One field's contribution to a `deserialize_raw` run: nothing, one
collected error, or one stored value. -/
inductive FieldRes where
  | skip
  | err (e : BVError)
  | val (source : String) (v : Prim)

/-- The try-block outcome for one field and one (post-default) value. -/
def procRes (f : Field) (value : Prim) : FieldRes :=
  if value.isNone && !f.flags.deserialize_none then
    .val f.flags.fsource Prim.none
  else
    match deserializeField f value with
    | .ok r => .val f.flags.fsource r
    | .error e => .err e

/-- The outcome of the `deserialize_raw` loop body for one field,
computed from the input map alone — independent of every other field's
outcome. -/
def fieldRes (f : Field) (entries : List (String × Prim)) : FieldRes :=
  if f.flags.read_only then .skip
  else
    let value := (lookupPrim entries f.flags.fname).getD Prim.none
    if value.isNone then
      match f.flags.default with
      | some d => procRes f d
      | Option.none =>
        if f.flags.required then
          .err (.fieldErr f.flags.fname (.str (missingMsg f.flags.fname)))
        else .skip
    else procRes f value

/-- The errors `deserialize_raw` collects, one per failing field, in
field order. -/
def collectErrs (fields : List Field) (entries : List (String × Prim)) :
    List BVError :=
  fields.filterMap fun f =>
    match fieldRes f entries with
    | .err e => some e
    | _ => Option.none

/-- The value map `deserialize_raw` builds from the succeeding fields. -/
def applyVals (fields : List Field) (entries : List (String × Prim))
    (values : List (String × Prim)) : List (String × Prim) :=
  fields.foldl
    (fun vals f =>
      match fieldRes f entries with
      | .val s r => iodInsert vals s r
      | _ => vals) values

theorem procValue_eq (f : Field) (value : Prim) (errors : List BVError)
    (values : List (String × Prim)) :
    procValue f value errors values =
      match procRes f value with
      | .skip => (errors, values)
      | .err e => (errors ++ [e], values)
      | .val s r => (errors, iodInsert values s r) := by
  unfold procValue procRes
  by_cases hc : (value.isNone && !f.flags.deserialize_none) = true
  · rw [if_pos hc, if_pos hc]
  · rw [if_neg hc, if_neg hc]
    cases hd : deserializeField f value <;> rfl

theorem stepField_eq (f : Field) (entries : List (String × Prim))
    (errors : List BVError) (values : List (String × Prim)) :
    stepField f entries errors values =
      match fieldRes f entries with
      | .skip => (errors, values)
      | .err e => (errors ++ [e], values)
      | .val s r => (errors, iodInsert values s r) := by
  unfold stepField fieldRes
  by_cases hro : f.flags.read_only = true
  · simp [hro]
  · simp only [hro, if_false, Bool.false_eq_true]
    by_cases hn : ((lookupPrim entries f.flags.fname).getD Prim.none).isNone = true
    · rw [if_pos hn, if_pos hn]
      cases hd : f.flags.default with
      | some d => dsimp only; rw [procValue_eq]
      | none =>
        dsimp only
        by_cases hr : f.flags.required = true <;> simp [hr]
    · rw [if_neg hn, if_neg hn, procValue_eq]

theorem runFields_eq (fields : List Field) (entries : List (String × Prim)) :
    ∀ errors values, runFields fields entries errors values =
      (errors ++ collectErrs fields entries, applyVals fields entries values) := by
  induction fields with
  | nil => intro errors values; simp [runFields, collectErrs, applyVals]
  | cons f rest ih =>
    intro errors values
    rw [runFields_cons, stepField_eq]
    cases hf : fieldRes f entries with
    | skip =>
      dsimp only
      rw [ih]
      simp [collectErrs, applyVals, List.filterMap_cons, hf]
    | err e =>
      dsimp only
      rw [ih]
      simp [collectErrs, applyVals, List.filterMap_cons, hf]
    | val s r =>
      dsimp only
      rw [ih]
      simp [collectErrs, applyVals, List.filterMap_cons, hf]

theorem deserialize_raw_map (fields : List Field)
    (entries : List (String × Prim)) :
    deserialize_raw fields (.map entries) =
      (if (collectErrs fields entries).isEmpty then
        Except.ok (applyVals fields entries [])
      else Except.error (.deser (collectErrs fields entries))) := by
  rw [deserialize_raw, runFields_eq]
  dsimp only
  rw [List.nil_append]

theorem deserialize_raw_not_map (fields : List Field) (input : Prim)
    (h : ∀ entries, input ≠ .map entries) :
    deserialize_raw fields input =
      Except.error (.deser [.validation "invalid input format"]) := by
  cases input
  case map entries => exact absurd rfl (h entries)
  all_goals rw [deserialize_raw]
  all_goals (intro entries he; cases he)

/-- C1: for every schema and every input, `deserialize_raw` either
succeeds or raises exactly one aggregate `DeserializationError`.  On
mapping input the aggregate contains the per-field errors of exactly the
failing fields — each computed from the input alone, independently of the
other fields' outcomes (collection, not fail-fast) — in field order
(`collectErrs` is a `filterMap` over the schema's field list); non-mapping
input raises the aggregate of one plain error; every error that escapes
is a `deser` aggregate, never a bare `fieldErr`. -/
theorem C1_aggregate_errors (fields : List Field) (input : Prim) :
    (∀ entries, input = .map entries →
      deserialize_raw fields input =
        (if (collectErrs fields entries).isEmpty then
          Except.ok (applyVals fields entries [])
        else Except.error (.deser (collectErrs fields entries)))) ∧
    ((∀ entries, input ≠ .map entries) →
      deserialize_raw fields input =
        Except.error (.deser [.validation "invalid input format"])) ∧
    (∀ e, deserialize_raw fields input = .error e → ∃ es, e = .deser es) := by
  refine ⟨?_, deserialize_raw_not_map fields input, ?_⟩
  · rintro entries rfl
    exact deserialize_raw_map fields entries
  · intro e he
    cases input
    case map entries =>
      rw [deserialize_raw_map] at he
      by_cases hc : (collectErrs fields entries).isEmpty = true
      · rw [if_pos hc] at he
        simp at he
      · rw [if_neg hc] at he
        rw [Except.error.injEq] at he
        exact ⟨collectErrs fields entries, he.symm⟩
    all_goals {
      rw [deserialize_raw_not_map fields _ fun entries h => Prim.noConfusion h]
        at he
      rw [Except.error.injEq] at he
      exact ⟨[.validation "invalid input format"], he.symm⟩
    }

/-- Witness for C1: a schema with two required fields deserialized from
an empty map collects both missing-value errors in field order inside one
aggregate; non-mapping input yields the single-plain-error aggregate. -/
theorem C1_witness :
    deserialize_raw
        [Field.integer { name := some "a" } Option.none Option.none,
          Field.bool { name := some "b" }] (.map []) =
      Except.error (.deser
        [.fieldErr "a" (.str (missingMsg "a")),
          .fieldErr "b" (.str (missingMsg "b"))]) ∧
    deserialize_raw [] (.bool true) =
      Except.error (.deser [.validation "invalid input format"]) := by
  obtain ⟨h1, -, -⟩ := C1_aggregate_errors
    [Field.integer { name := some "a" } Option.none Option.none,
      Field.bool { name := some "b" }] (.map [])
  obtain ⟨-, h2, -⟩ := C1_aggregate_errors [] (.bool true)
  refine ⟨?_, ?_⟩
  · rw [h1 [] rfl]
    simp [collectErrs, fieldRes, lookupPrim, Field.flags, FieldFlags.fname,
      Prim.isNone]
  · exact h2 fun entries h => Prim.noConfusion h

/-- C10: a field constructed with only a name (every other keyword
argument left to its default) is required; a schema containing such a
field, deserialized from a map that does not bind the field's name,
raises an aggregate containing the "missing required value" field error
for it, rather than skipping the field silently. -/
theorem C10_required_by_default (nm : String) (fields : List Field)
    (f : Field) (entries : List (String × Prim)) (hf : f ∈ fields)
    (hro : f.flags.read_only = false) (hreq : f.flags.required = true)
    (hdef : f.flags.default = Option.none)
    (hlook : lookupPrim entries f.flags.fname = Option.none) :
    (∀ s : String, (({ name := some s } : FieldFlags)).required = true) ∧
    ∃ es, deserialize_raw fields (.map entries) = Except.error (.deser es) ∧
      .fieldErr f.flags.fname (.str (missingMsg f.flags.fname)) ∈ es := by
  refine ⟨fun _ => rfl, ?_⟩
  have hres : fieldRes f entries =
      .err (.fieldErr f.flags.fname (.str (missingMsg f.flags.fname))) := by
    unfold fieldRes
    rw [hro, hlook, hdef]
    simp [Prim.isNone, hreq]
  have hmem : (.fieldErr f.flags.fname (.str (missingMsg f.flags.fname))) ∈
      collectErrs fields entries := by
    unfold collectErrs
    exact List.mem_filterMap.mpr ⟨f, hf, by rw [hres]⟩
  have hne : (collectErrs fields entries).isEmpty ≠ true := by
    intro hc
    rw [List.isEmpty_iff] at hc
    rw [hc] at hmem
    exact absurd hmem (List.not_mem_nil _)
  refine ⟨collectErrs fields entries, ?_, hmem⟩
  rw [deserialize_raw_map, if_neg hne]

/-- Witness for C10: a text field declared with only a name is required
by default, and deserializing the empty map reports it missing inside the
aggregate. -/
theorem C10_witness :
    ∃ es, deserialize_raw [Field.text { name := some "t" } Option.none
        Option.none Option.none] (.map []) =
      Except.error (.deser es) ∧
      .fieldErr "t" (.str (missingMsg "t")) ∈ es := by
  have h := C10_required_by_default "t"
    [Field.text { name := some "t" } Option.none Option.none Option.none]
    (Field.text { name := some "t" } Option.none Option.none Option.none)
    [] (by simp) rfl rfl rfl rfl
  exact h.2

/-- C4 counterexample: a field with `deserialize_none` enabled, no
default and an explicit null bound to its name in the input.  The claim
says the null is passed through the field's deserialize; instead
`dict.get` makes an explicit null indistinguishable from an absent key,
so the run records the "missing required value" error and never invokes
deserialize (whose result on null, shown alongside, is a different
error). -/
theorem C4_counterexample :
    deserialize_raw [Field.bool { name := some "x", deserialize_none := true }]
        (.map [("x", Prim.none)]) =
      Except.error (.deser [.fieldErr "x" (.str (missingMsg "x"))]) ∧
    deserializeField (Field.bool { name := some "x", deserialize_none := true })
        Prim.none =
      Except.error (.fieldErr "x" (.str (invalidMsg "None"))) := by
  constructor
  · rw [deserialize_raw_map]
    simp [collectErrs, fieldRes, lookupPrim, Field.flags, FieldFlags.fname,
      Prim.isNone]
  · simp [deserializeField, boolDeserialize, pyStr, Field.flags,
      FieldFlags.fname]
    rfl

/-- C4 amended: an explicit null in the input is read back by `dict.get`
exactly like an absent key, so the two are indistinguishable to the loop;
a null reaches the field's deserialize path only when it arrives as the
field's configured default: with default null and `deserialize_none` set,
deserialize is invoked on null; with default null and the flag unset,
null is stored directly; with no default, the null falls to the
required/skip logic and deserialize is never invoked. -/
theorem C4_amended (f : Field) (entries : List (String × Prim))
    (hro : f.flags.read_only = false)
    (hnull : (lookupPrim entries f.flags.fname).getD Prim.none = Prim.none) :
    (∀ entries2, (lookupPrim entries2 f.flags.fname).getD Prim.none = Prim.none →
      fieldRes f entries = fieldRes f entries2) ∧
    (f.flags.default = some Prim.none → f.flags.deserialize_none = true →
      fieldRes f entries =
        (match deserializeField f Prim.none with
         | .ok r => .val f.flags.fsource r
         | .error e => .err e)) ∧
    (f.flags.default = some Prim.none → f.flags.deserialize_none = false →
      fieldRes f entries = .val f.flags.fsource Prim.none) ∧
    (f.flags.default = Option.none →
      fieldRes f entries =
        (if f.flags.required then
          .err (.fieldErr f.flags.fname (.str (missingMsg f.flags.fname)))
        else .skip)) := by
  refine ⟨?_, ?_, ?_, ?_⟩
  · intro entries2 hnull2
    unfold fieldRes
    rw [hnull, hnull2]
  · intro hdef hdn
    unfold fieldRes procRes
    rw [hro, hnull, hdef]
    simp [Prim.isNone, hdn]
  · intro hdef hdn
    unfold fieldRes procRes
    rw [hro, hnull, hdef]
    simp [Prim.isNone, hdn]
  · intro hdef
    unfold fieldRes
    rw [hro, hnull, hdef]
    simp [Prim.isNone]

/-- Witness for C4 amended: a bool field with default null; with
`deserialize_none` unset the null is stored directly; and an explicit
null binding is indistinguishable from the empty map. -/
theorem C4_amended_witness :
    fieldRes (Field.bool { name := some "x", default := some Prim.none }) [] =
      .val "None" Prim.none ∧
    fieldRes (Field.bool { name := some "x", default := some Prim.none })
        [("x", Prim.none)] =
      fieldRes (Field.bool { name := some "x", default := some Prim.none }) [] := by
  have h := C4_amended
    (Field.bool { name := some "x", default := some Prim.none }) [] rfl rfl
  have h2 := C4_amended
    (Field.bool { name := some "x", default := some Prim.none })
    [("x", Prim.none)] rfl (by simp [lookupPrim, Field.flags, FieldFlags.fname])
  refine ⟨?_, h2.1 [] rfl⟩
  have := h.2.2.1 rfl rfl
  rw [this]
  rfl

theorem iodInsert_keys_of_mem {α : Type} (l : List (String × α)) (k : String)
    (v : α) (h : k ∈ l.map Prod.fst) :
    (iodInsert l k v).map Prod.fst = l.map Prod.fst := by
  unfold iodInsert
  obtain ⟨p, hp, hpk⟩ := List.mem_map.1 h
  rw [if_pos (by rw [List.any_eq_true]; exact ⟨p, hp, by simp [hpk]⟩)]
  rw [List.map_map]
  refine List.map_congr_left fun q hq => ?_
  by_cases hqk : q.1 = k
  · simp [hqk]
  · simp [hqk]

theorem iodInsert_keys_of_not_mem {α : Type} (l : List (String × α))
    (k : String) (v : α) (h : k ∉ l.map Prod.fst) :
    (iodInsert l k v).map Prod.fst = l.map Prod.fst ++ [k] := by
  have hcond : ¬ (l.any fun p => decide (p.1 = k)) = true := by
    rw [List.any_eq_true]
    rintro ⟨p, hp, hpk⟩
    simp only [decide_eq_true_eq] at hpk
    exact h (List.mem_map.2 ⟨p, hp, hpk⟩)
  unfold iodInsert
  rw [if_neg hcond, List.map_append]
  rfl

theorem iodInsert_nodup_keys {α : Type} (l : List (String × α)) (k : String)
    (v : α) (h : (l.map Prod.fst).Nodup) :
    ((iodInsert l k v).map Prod.fst).Nodup := by
  by_cases hm : k ∈ l.map Prod.fst
  · rw [iodInsert_keys_of_mem l k v hm]; exact h
  · rw [iodInsert_keys_of_not_mem l k v hm]
    simp [List.nodup_append, h, hm]

theorem lookupPrim_none_of_not_mem {α : Type} (l : List (String × α))
    (k : String) (h : k ∉ l.map Prod.fst) : lookupPrim l k = Option.none := by
  induction l with
  | nil => rfl
  | cons p rest ih =>
    simp only [List.map_cons, List.mem_cons, not_or] at h
    cases p with
    | mk k0 v0 =>
      rw [lookupPrim, if_neg (by simpa using fun hq => h.1 hq.symm)]
      exact ih h.2

theorem lookupPrim_append_of_none {α : Type} (l1 l2 : List (String × α))
    (k : String) (h : lookupPrim l1 k = Option.none) :
    lookupPrim (l1 ++ l2) k = lookupPrim l2 k := by
  induction l1 with
  | nil => rfl
  | cons p rest ih =>
    cases p with
    | mk k0 v0 =>
      rw [lookupPrim] at h
      by_cases hk : k0 = k
      · rw [if_pos hk] at h; cases h
      · rw [if_neg hk] at h
        rw [List.cons_append, lookupPrim, if_neg hk]
        exact ih h

theorem lookupPrim_map_overwrite {α : Type} (l : List (String × α))
    (k : String) (v : α) (hm : k ∈ l.map Prod.fst) :
    lookupPrim (l.map fun p => if p.1 = k then (k, v) else p) k = some v := by
  induction l with
  | nil => simp at hm
  | cons p rest ih =>
    by_cases hp : p.1 = k
    · simp only [List.map_cons, if_pos hp]
      rw [lookupPrim, if_pos rfl]
    · simp only [List.map_cons, if_neg hp]
      cases p with
      | mk k0 v0 =>
        rw [lookupPrim, if_neg hp]
        refine ih ?_
        simp only [List.map_cons, List.mem_cons] at hm
        rcases hm with h1 | h2
        · exact absurd h1.symm hp
        · exact h2

theorem iodInsert_any_of_mem {α : Type} (l : List (String × α)) (k : String)
    (hm : k ∈ l.map Prod.fst) : (l.any fun p => decide (p.1 = k)) = true := by
  rw [List.any_eq_true]
  obtain ⟨p, hp, hpk⟩ := List.mem_map.1 hm
  exact ⟨p, hp, by simp [hpk]⟩

theorem iodInsert_any_of_not_mem {α : Type} (l : List (String × α))
    (k : String) (hm : k ∉ l.map Prod.fst) :
    ¬ (l.any fun p => decide (p.1 = k)) = true := by
  rw [List.any_eq_true]
  rintro ⟨p, hp, hpk⟩
  simp only [decide_eq_true_eq] at hpk
  exact hm (List.mem_map.2 ⟨p, hp, hpk⟩)

theorem lookupPrim_iodInsert_self {α : Type} (l : List (String × α))
    (k : String) (v : α) : lookupPrim (iodInsert l k v) k = some v := by
  unfold iodInsert
  by_cases hm : k ∈ l.map Prod.fst
  · rw [if_pos (iodInsert_any_of_mem l k hm)]
    exact lookupPrim_map_overwrite l k v hm
  · rw [if_neg (iodInsert_any_of_not_mem l k hm)]
    rw [lookupPrim_append_of_none _ _ _ (lookupPrim_none_of_not_mem l k hm),
      lookupPrim, if_pos rfl]

theorem lookupPrim_iodInsert_other {α : Type} (l : List (String × α))
    (k k2 : String) (v : α) (hkk : k2 ≠ k) :
    lookupPrim (iodInsert l k v) k2 = lookupPrim l k2 := by
  unfold iodInsert
  by_cases hm : k ∈ l.map Prod.fst
  · rw [if_pos (iodInsert_any_of_mem l k hm)]
    clear hm
    induction l with
    | nil => rfl
    | cons p rest ih =>
      by_cases hp : p.1 = k
      · simp only [List.map_cons, if_pos hp]
        cases p with
        | mk k0 v0 =>
          simp only at hp
          rw [lookupPrim, lookupPrim, if_neg (fun h => hkk h.symm),
            if_neg (by rw [hp]; exact fun h => hkk h.symm)]
          exact ih
      · simp only [List.map_cons, if_neg hp]
        cases p with
        | mk k0 v0 =>
          rw [lookupPrim, lookupPrim]
          by_cases hq : k0 = k2
          · rw [if_pos hq, if_pos hq]
          · rw [if_neg hq, if_neg hq]
            exact ih
  · rw [if_neg (iodInsert_any_of_not_mem l k hm)]
    induction l with
    | nil =>
      have hne : ¬ k = k2 := fun h => hkk h.symm
      simp [lookupPrim, hne]
    | cons p rest ih =>
      cases p with
      | mk k0 v0 =>
        rw [List.cons_append, lookupPrim, lookupPrim]
        by_cases hq : k0 = k2
        · rw [if_pos hq, if_pos hq]
        · rw [if_neg hq, if_neg hq]
          exact ih (fun hh => hm (by simp only [List.map_cons, List.mem_cons]
                                     exact Or.inr hh))

/-- The generic ordered-insert fold shared by the seeding and attribute
passes of the registration step. -/
def iodExtend {α : Type} (base : List (String × α))
    (items : List (String × α)) : List (String × α) :=
  items.foldl (fun a kv => iodInsert a kv.1 kv.2) base

/-- The resolved (name, field) pair the attribute pass inserts for one
declared attribute. -/
def resolvePair (kv : String × Field) : String × Field :=
  let fld := kv.2.update_name kv.1
  (fld.flags.fname, fld)

theorem seedBases_single (anc : List (String × Field)) :
    seedBases [anc] = iodExtend [] anc := rfl

theorem seedBases_pair (b1 b2 : List (String × Field)) :
    seedBases [b1, b2] = iodExtend (iodExtend [] b2) b1 := rfl

theorem addAttrs_eq (seeded : List (String × Field))
    (attrs : List (String × Field)) :
    addAttrs seeded attrs = iodExtend seeded (attrs.map resolvePair) := by
  unfold addAttrs iodExtend resolvePair
  rw [List.foldl_map]

theorem iodExtend_nil_items {α : Type} (base : List (String × α)) :
    iodExtend base [] = base := rfl

theorem iodExtend_cons {α : Type} (base : List (String × α)) (kv : String × α)
    (rest : List (String × α)) :
    iodExtend base (kv :: rest) = iodExtend (iodInsert base kv.1 kv.2) rest :=
  rfl

theorem iodExtend_keys {α : Type} (items : List (String × α))
    (hn : (items.map Prod.fst).Nodup) :
    ∀ base : List (String × α),
      (iodExtend base items).map Prod.fst =
        base.map Prod.fst ++
          (items.map Prod.fst).filter
            (fun n => decide (n ∉ base.map Prod.fst)) := by
  induction items with
  | nil => intro base; simp [iodExtend_nil_items]
  | cons kv rest ih =>
    intro base
    simp only [List.map_cons, List.nodup_cons] at hn
    rw [iodExtend_cons]
    simp only [List.map_cons]
    by_cases hm : kv.1 ∈ base.map Prod.fst
    · rw [ih hn.2, iodInsert_keys_of_mem _ _ _ hm,
        List.filter_cons_of_neg (by simp [hm])]
    · rw [ih hn.2, iodInsert_keys_of_not_mem _ _ _ hm,
        List.filter_cons_of_pos (by simp [hm])]
      have hF : (rest.map Prod.fst).filter
            (fun n => decide (n ∉ base.map Prod.fst ++ [kv.1])) =
          (rest.map Prod.fst).filter
            (fun n => decide (n ∉ base.map Prod.fst)) := by
        refine List.filter_congr fun n hnr => ?_
        have hne : n ≠ kv.1 := fun h => hn.1 (h ▸ hnr)
        simp [hne, List.mem_append]
      rw [hF, List.append_assoc]
      rfl

theorem iodExtend_lookup_not_mem {α : Type} (items : List (String × α))
    (k : String) (hk : k ∉ items.map Prod.fst) :
    ∀ base : List (String × α),
      lookupPrim (iodExtend base items) k = lookupPrim base k := by
  induction items with
  | nil => intro base; rfl
  | cons kv rest ih =>
    intro base
    simp only [List.map_cons, List.mem_cons, not_or] at hk
    rw [iodExtend_cons, ih hk.2, lookupPrim_iodInsert_other _ _ _ _ hk.1]

theorem iodExtend_lookup_mem {α : Type} (items : List (String × α))
    (hn : (items.map Prod.fst).Nodup) (kv : String × α) (hkv : kv ∈ items) :
    ∀ base : List (String × α),
      lookupPrim (iodExtend base items) kv.1 = some kv.2 := by
  induction items with
  | nil => exact absurd hkv (List.not_mem_nil kv)
  | cons hd rest ih =>
    intro base
    simp only [List.map_cons, List.nodup_cons] at hn
    rcases List.mem_cons.1 hkv with heq | hmem
    · subst heq
      rw [iodExtend_cons,
        iodExtend_lookup_not_mem rest kv.1 hn.1 _,
        lookupPrim_iodInsert_self]
    · rw [iodExtend_cons]
      exact ih hn.2 hmem _

theorem iodExtend_disjoint {α : Type} (items : List (String × α))
    (hn : (items.map Prod.fst).Nodup) :
    ∀ base : List (String × α),
      (∀ n ∈ items.map Prod.fst, n ∉ base.map Prod.fst) →
      iodExtend base items = base ++ items := by
  induction items with
  | nil => intro base _; simp [iodExtend_nil_items]
  | cons kv rest ih =>
    intro base hdisj
    simp only [List.map_cons, List.nodup_cons] at hn
    rw [iodExtend_cons]
    have hb : kv.1 ∉ base.map Prod.fst := hdisj kv.1 (by simp)
    have hstep : iodInsert base kv.1 kv.2 = base ++ [kv] := by
      unfold iodInsert
      rw [if_neg (iodInsert_any_of_not_mem base kv.1 hb)]
    rw [hstep, ih hn.2 (base ++ [kv]) ?_, List.append_assoc]
    · rfl
    · intro n hnr
      rw [List.map_append, List.mem_append]
      rintro (h1 | h2)
      · exact hdisj n (by simp [hnr]) h1
      · simp only [List.map_cons, List.map_nil, List.mem_singleton] at h2
        exact hn.1 (h2 ▸ hnr)

theorem iodExtend_nil_base {α : Type} (items : List (String × α))
    (hn : (items.map Prod.fst).Nodup) : iodExtend [] items = items := by
  rw [iodExtend_disjoint items hn [] (by simp)]
  rfl

theorem iodExtend_nodup {α : Type} (items : List (String × α)) :
    ∀ base : List (String × α), (base.map Prod.fst).Nodup →
      ((iodExtend base items).map Prod.fst).Nodup := by
  induction items with
  | nil => intro base h; exact h
  | cons kv rest ih =>
    intro base h
    rw [iodExtend_cons]
    exact ih _ (iodInsert_nodup_keys base kv.1 kv.2 h)

/-- C5: schema field collection.  With a single ancestor collection `anc`
(unique names, as the metaclass guarantees) and the class body's declared
attributes `attrs` (unique resolved names): the collection seeds from the
ancestor, then applies this level's declarations; names stay unique; the
key order is the ancestor's keys — each kept in its original position
even when overridden — followed by the genuinely new names in declaration
order; a redeclared name maps to the subclass's (name-resolved) field
instance; an untouched name keeps the ancestor's field.  With two base
classes, bases are seeded in reversed declaration order, so the
earlier-declared base's same-named field instance wins. -/
theorem C5_registration (anc : List (String × Field))
    (attrs : List (String × Field))
    (hanc : (anc.map Prod.fst).Nodup)
    (hattr : ((attrs.map resolvePair).map Prod.fst).Nodup) :
    ((schemaFields [anc] attrs).map Prod.fst).Nodup ∧
    (schemaFields [anc] attrs).map Prod.fst =
      anc.map Prod.fst ++
        ((attrs.map resolvePair).map Prod.fst).filter
          (fun n => decide (n ∉ anc.map Prod.fst)) ∧
    (∀ kv ∈ attrs,
      lookupPrim (schemaFields [anc] attrs) (resolvePair kv).1 =
        some (kv.2.update_name kv.1)) ∧
    (∀ k, k ∉ (attrs.map resolvePair).map Prod.fst →
      lookupPrim (schemaFields [anc] attrs) k = lookupPrim anc k) ∧
    (∀ b1 b2 : List (String × Field), (b1.map Prod.fst).Nodup →
      ∀ kv ∈ b1, lookupPrim (seedBases [b1, b2]) kv.1 = some kv.2) := by
  have hbase : schemaFields [anc] attrs =
      iodExtend anc (attrs.map resolvePair) := by
    unfold schemaFields
    rw [addAttrs_eq, seedBases_single, iodExtend_nil_base anc hanc]
  refine ⟨?_, ?_, ?_, ?_, ?_⟩
  · rw [hbase]; exact iodExtend_nodup _ anc hanc
  · rw [hbase]; exact iodExtend_keys _ hattr anc
  · intro kv hkv
    rw [hbase]
    exact iodExtend_lookup_mem _ hattr (resolvePair kv)
      (List.mem_map_of_mem resolvePair hkv) anc
  · intro k hk
    rw [hbase]
    exact iodExtend_lookup_not_mem _ k hk anc
  · intro b1 b2 hb1 kv hkv
    rw [seedBases_pair]
    exact iodExtend_lookup_mem b1 hb1 kv hkv _

theorem update_name_flags (f : Field) (key : String) :
    (f.update_name key).flags = f.flags.resolve key := by
  cases f <;> simp [Field.update_name, Field.flags]

/-- Witness for C5: ancestor fields `a`, `b`; the subclass redeclares `b`
(as a text field) and adds `c`.  The resulting order is `a`, `b`, `c` —
`b` keeps the ancestor position — and `b` now maps to the subclass's
name-resolved field instance. -/
theorem C5_witness :
    (schemaFields
        [[("a", Field.integer { name := some "a" } Option.none Option.none),
          ("b", Field.bool { name := some "b" })]]
        [("b", Field.text {} Option.none Option.none Option.none),
          ("c", Field.text {} Option.none Option.none Option.none)]).map
        Prod.fst = ["a", "b", "c"] ∧
    lookupPrim
        (schemaFields
          [[("a", Field.integer { name := some "a" } Option.none Option.none),
            ("b", Field.bool { name := some "b" })]]
          [("b", Field.text {} Option.none Option.none Option.none),
            ("c", Field.text {} Option.none Option.none Option.none)]) "b" =
      some ((Field.text {} Option.none Option.none Option.none).update_name
        "b") := by
  have hn1 : (("b", Field.text ({} : FieldFlags) Option.none Option.none
      Option.none) |> resolvePair).1 = "b" := by
    simp only [resolvePair]
    rw [update_name_flags]
    simp [FieldFlags.resolve, FieldFlags.fname, Field.flags]
  have hn2 : (("c", Field.text ({} : FieldFlags) Option.none Option.none
      Option.none) |> resolvePair).1 = "c" := by
    simp only [resolvePair]
    rw [update_name_flags]
    simp [FieldFlags.resolve, FieldFlags.fname, Field.flags]
  have h := C5_registration
    [("a", Field.integer { name := some "a" } Option.none Option.none),
      ("b", Field.bool { name := some "b" })]
    [("b", Field.text {} Option.none Option.none Option.none),
      ("c", Field.text {} Option.none Option.none Option.none)]
    (by decide)
    (by simp only [List.map_cons, List.map_nil, hn1, hn2]; decide)
  refine ⟨?_, ?_⟩
  · rw [h.2.1]
    simp only [List.map_cons, List.map_nil, hn1, hn2]
    decide
  · have h3 := h.2.2.1
      ("b", Field.text {} Option.none Option.none Option.none) (by simp)
    rw [hn1] at h3
    exact h3

theorem pyStr_str (s : String) : pyStr (.str s) = s := by simp [pyStr]

theorem pyStr_none_eq : pyStr Prim.none = "None" := by simp [pyStr]

/-- C3 counterexample: a Text field whose pattern is the single-character
regex `a`, deserializing `"ab"`.  A proper prefix matches the pattern
while the full string does not (`rmatch` is exact-language membership),
yet deserialize succeeds — `re.Pattern.match` anchors only at the start,
refuting the claimed full-string matching. -/
theorem C3_counterexample :
    deserializeField
        (Field.text { name := some "t" } Option.none Option.none
          (some (RegularExpression.char 'a'))) (.str "ab") =
      Except.ok (.str "ab") ∧
    (RegularExpression.char 'a').rmatch "ab".data = false := by
  have hm : pythonMatch (RegularExpression.char 'a') "ab".data = true := by
    decide
  constructor
  · simp [deserializeField, textDeserialize, pyStr_str, Prim.isNone, hm]
  · decide

/-- C3 amended: for a Text field with a pattern (and no length bounds),
deserialize of a string succeeds exactly when the pattern matches at the
start of the string — i.e. some prefix of the input (possibly proper) is
in the pattern's language.  A string matching only an interior substring
still fails; a full match still succeeds; but a proper-prefix match
succeeds as well (the match is anchored at the start only, not at the
end). -/
theorem C3_amended (fl : FieldFlags) (P : RegularExpression Char)
    (s : String) :
    (deserializeField (Field.text fl Option.none Option.none (some P))
        (.str s) = Except.ok (.str s) ↔ pythonMatch P s.data = true) ∧
    (pythonMatch P s.data = true ↔
      ∃ p q, s.data = p ++ q ∧ p ∈ P.matches') := by
  refine ⟨?_, pythonMatch_iff P s.data⟩
  have hdis : deserializeField (Field.text fl Option.none Option.none (some P))
      (.str s) = textDeserialize fl Option.none Option.none (some P)
      (.str s) := by
    simp [deserializeField]
  rw [hdis]
  unfold textDeserialize
  rw [pyStr_str]
  by_cases hp : pythonMatch P s.data = true
  · simp [Prim.isNone, Option.any, hp]
  · simp [Prim.isNone, Option.any, hp]

/-- C6 counterexample: a List-of-Integer field deserializing a dict.
A dict is not a sequence, yet `isinstance(value, Iterable)` accepts it
and iteration yields its keys, so deserialization succeeds (on the keys)
instead of failing with a field error. -/
theorem C6_counterexample :
    deserializeField
        (Field.list { name := some "l" }
          (Field.integer { name := some "l" } Option.none Option.none))
        (.map [("3", Prim.none)]) =
      Except.ok (.list [.int 3]) := by
  simp [deserializeField, deserializeElems, iterPrim, integerDeserialize,
    pyInt, parseIntChars, splitSign, parseNat, parseNatAux]

/-- C6 amended: `List.deserialize` rejects non-iterable input, and a bare
string, with the `Expected list` field error (a dict, being iterable, is
instead iterated over its keys); for list input it maps the child field's
deserialize over the elements in order, the first failing element's error
surfacing as the field's own error; `["1","2","3"]` against an Integer
child yields `[1,2,3]`. -/
theorem C6_amended (fl : FieldFlags) (child : Field) :
    (∀ v : Prim, iterPrim v = Option.none →
      deserializeField (.list fl child) v =
        Except.error (.fieldErr fl.fname (.str "Expected list"))) ∧
    (∀ s : String, deserializeField (.list fl child) (.str s) =
      Except.error (.fieldErr fl.fname (.str "Expected list"))) ∧
    (∀ items rs, deserializeElems child items = Except.ok rs →
      deserializeField (.list fl child) (.list items) =
        Except.ok (.list rs)) ∧
    (∀ items e, deserializeElems child items = Except.error e →
      deserializeField (.list fl child) (.list items) = Except.error e) ∧
    (∀ pre x post e,
      (∀ y ∈ pre, ∃ r, deserializeField child y = Except.ok r) →
      deserializeField child x = Except.error e →
      deserializeElems child (pre ++ x :: post) = Except.error e) ∧
    deserializeField
        (Field.list { name := some "l" }
          (Field.integer { name := some "l" } Option.none Option.none))
        (.list [.str "1", .str "2", .str "3"]) =
      Except.ok (.list [.int 1, .int 2, .int 3]) := by
  refine ⟨?_, ?_, ?_, ?_, ?_, ?_⟩
  · intro v hv
    cases v <;> simp_all [deserializeField, iterPrim]
  · intro s
    simp [deserializeField]
  · intro items rs h
    simp [deserializeField, iterPrim, h]
  · intro items e h
    simp [deserializeField, iterPrim, h]
  · intro pre x post e hok hx
    induction pre with
    | nil => simp [deserializeElems, hx]
    | cons y pre ih =>
      obtain ⟨r, hr⟩ := hok y (by simp)
      rw [List.cons_append]
      simp only [deserializeElems, hr]
      rw [ih fun z hz => hok z (by simp [hz])]
  · simp [deserializeField, deserializeElems, iterPrim, integerDeserialize,
      pyInt, parseIntChars, splitSign, parseNat, parseNatAux]

/-- The candidate list of the case-insensitive substring fallback: the
declared names whose lowercase form contains the lowercased input. -/
def softOptions (names : List String) (s : String) : List String :=
  names.filter fun n => decide ((strLower s).data <:+: (strLower n).data)

theorem eq_singleton_of_unique {α : Type} (l : List α) (o : α) (hn : l.Nodup)
    (ho : o ∈ l) (hall : ∀ x ∈ l, x = o) : l = [o] := by
  cases l with
  | nil => exact absurd ho (List.not_mem_nil o)
  | cons x rest =>
    have hx : x = o := hall x (by simp)
    subst hx
    cases rest with
    | nil => rfl
    | cons y t =>
      have hy : y = x := hall y (by simp)
      rw [List.nodup_cons] at hn
      exact absurd (by simp [hy]) hn.1

/-- C7: Enum with `soft_match` when the exact member-name lookup misses:
the case-insensitive substring search succeeds, returning the unique
candidate, exactly when one candidate matches; zero or two-or-more
candidates yield the field error.  For distinct member names, "exactly
one candidate" coincides with the existence of a unique matching member.
`MultiChoiceField` applies the same rule over a plain choice set,
returning the stored choice string. -/
theorem C7_soft_match (fl : FieldFlags) (members choices : List String)
    (s : String) (hm : members.contains s = false)
    (hc : choices.contains s = false) :
    (∀ o, softOptions members s = [o] →
      deserializeField (.enum fl members true) (.str s) =
        Except.ok (.enumMember o)) ∧
    (softOptions members s = [] →
      deserializeField (.enum fl members true) (.str s) =
        Except.error (.fieldErr fl.fname (.str (invalidMsg (strLower s))))) ∧
    (2 ≤ (softOptions members s).length →
      deserializeField (.enum fl members true) (.str s) =
        Except.error (.fieldErr fl.fname (.str (invalidMsg (strLower s))))) ∧
    (members.Nodup →
      ((∃ o, softOptions members s = [o]) ↔
        ∃ o, o ∈ members ∧ (strLower s).data <:+: (strLower o).data ∧
          ∀ o2 ∈ members, (strLower s).data <:+: (strLower o2).data →
            o2 = o)) ∧
    (∀ o, softOptions choices s = [o] →
      deserializeField (.multiChoice fl choices true) (.str s) =
        Except.ok (.str o)) ∧
    ((softOptions choices s = [] ∨ 2 ≤ (softOptions choices s).length) →
      deserializeField (.multiChoice fl choices true) (.str s) =
        Except.error (.fieldErr fl.fname (.str (invalidMsg (strLower s))))) := by
  have hde : deserializeField (.enum fl members true) (.str s) =
      enumDeserialize fl members true (.str s) := by simp [deserializeField]
  have hdm : deserializeField (.multiChoice fl choices true) (.str s) =
      multiChoiceDeserialize fl choices true (.str s) := by
    simp [deserializeField]
  have hopts : ∀ names : List String,
      (names.filter fun n =>
        decide ((strLower (pyStr (.str s))).data <:+: (strLower n).data)) =
      softOptions names s := by
    intro names
    rw [pyStr_str]
    rfl
  refine ⟨?_, ?_, ?_, ?_, ?_, ?_⟩
  · intro o ho
    rw [hde]
    unfold enumDeserialize
    rw [pyStr_str]
    simp only [hm, Bool.false_eq_true, if_false, if_true]
    rw [show (members.filter fun n =>
        decide ((strLower s).data <:+: (strLower n).data)) =
      softOptions members s from rfl]
    rw [ho]
  · intro ho
    rw [hde]
    unfold enumDeserialize
    rw [pyStr_str]
    simp only [hm, Bool.false_eq_true, if_false, if_true]
    rw [show (members.filter fun n =>
        decide ((strLower s).data <:+: (strLower n).data)) =
      softOptions members s from rfl, ho]
  · intro hlen
    rw [hde]
    unfold enumDeserialize
    rw [pyStr_str]
    simp only [hm, Bool.false_eq_true, if_false, if_true]
    rw [show (members.filter fun n =>
        decide ((strLower s).data <:+: (strLower n).data)) =
      softOptions members s from rfl]
    rcases hsp : softOptions members s with _ | ⟨a, _ | ⟨b, t⟩⟩
    all_goals try rfl
    all_goals (rw [hsp] at hlen; simp at hlen)
  · intro hnd
    constructor
    · rintro ⟨o, ho⟩
      have hoin : o ∈ softOptions members s := by rw [ho]; simp
      rw [softOptions, List.mem_filter] at hoin
      refine ⟨o, hoin.1, by simpa using hoin.2, ?_⟩
      intro o2 ho2 hsub
      have : o2 ∈ softOptions members s := by
        rw [softOptions, List.mem_filter]
        exact ⟨ho2, by simpa using hsub⟩
      rw [ho] at this
      simpa using this
    · rintro ⟨o, hoin, hsub, huniq⟩
      refine ⟨o, eq_singleton_of_unique _ o (List.Nodup.filter _ hnd) ?_ ?_⟩
      · rw [softOptions, List.mem_filter]
        exact ⟨hoin, by simpa using hsub⟩
      · intro x hx
        rw [softOptions, List.mem_filter] at hx
        exact huniq x hx.1 (by simpa using hx.2)
  · intro o ho
    rw [hdm]
    unfold multiChoiceDeserialize
    rw [pyStr_str]
    simp only [hc, Bool.false_eq_true, if_false, if_true]
    rw [show (choices.filter fun n =>
        decide ((strLower s).data <:+: (strLower n).data)) =
      softOptions choices s from rfl, ho]
  · intro ho
    rw [hdm]
    unfold multiChoiceDeserialize
    rw [pyStr_str]
    simp only [hc, Bool.false_eq_true, if_false, if_true]
    rw [show (choices.filter fun n =>
        decide ((strLower s).data <:+: (strLower n).data)) =
      softOptions choices s from rfl]
    rcases hsp : softOptions choices s with _ | ⟨a, _ | ⟨b, t⟩⟩
    · rfl
    · rcases ho with h0 | h2
      · rw [hsp] at h0; cases h0
      · rw [hsp] at h2; simp at h2
    · rfl

/-- Witness for C7: members Red/Green/Grey.  "red" misses the exact
lookup and matches exactly one member — accepted, returning Red; "gr"
matches Green and Grey — rejected.  MultiChoice: "ALPHA" uniquely
matches the stored choice "alpha". -/
theorem C7_witness :
    deserializeField
        (Field.enum { name := some "e" } ["Red", "Green", "Grey"] true)
        (.str "red") =
      Except.ok (.enumMember "Red") ∧
    deserializeField
        (Field.enum { name := some "e" } ["Red", "Green", "Grey"] true)
        (.str "gr") =
      Except.error (.fieldErr "e" (.str (invalidMsg "gr"))) ∧
    deserializeField
        (Field.multiChoice { name := some "m" } ["alpha", "beta"] true)
        (.str "ALPHA") =
      Except.ok (.str "alpha") := by
  have h1 := C7_soft_match { name := some "e" } ["Red", "Green", "Grey"]
    ["alpha", "beta"] "red" (by decide) (by decide)
  have h2 := C7_soft_match { name := some "e" } ["Red", "Green", "Grey"]
    ["alpha", "beta"] "gr" (by decide) (by decide)
  have h3 := C7_soft_match { name := some "m" } [] ["alpha", "beta"] "ALPHA"
    (by decide) (by decide)
  refine ⟨?_, ?_, ?_⟩
  · exact h1.1 "Red" (by decide)
  · have hr := h2.2.2.1 (by decide)
    rw [show strLower "gr" = "gr" from by decide] at hr
    exact hr
  · exact h3.2.2.2.2.1 "alpha" (by decide)

/-- C8: when a Related field's nested schema deserialization fails, the
field fails with its own field error whose reason is the nested error's
serialized form; and the serialized form of an aggregate embeds each
nested error's own serialized record — so a nested field error keeps its
own field name inside the nested structure rather than being flattened
into the parent's field name. -/
theorem C8_related_nesting (fl : FieldFlags) (schema : List Field)
    (v : Prim) :
    (∀ e, deserialize_raw schema v = Except.error e →
      deserializeField (.related fl schema) v =
        Except.error (.fieldErr fl.fname e.serialized)) ∧
    (∀ es, (BVError.deser es).serialized =
      .map [("errors", .list (es.map BVError.serialized))]) ∧
    (∀ n r, (BVError.fieldErr n r).serialized =
      .map [("field", .str n), ("error", r)]) := by
  refine ⟨?_, ?_, ?_⟩
  · intro e he
    rw [deserializeField_related, he]
  · intro es
    simp [BVError.serialized]
  · intro n r
    simp [BVError.serialized]

/-- Witness for C8: a nested schema with a required field `inner`
deserialized from the empty map; the Related field's error carries the
nested aggregate, with the name `inner` preserved in the nested
record. -/
theorem C8_witness :
    deserializeField
        (Field.related { name := some "r" }
          [Field.integer { name := some "inner" } Option.none Option.none])
        (.map []) =
      Except.error (.fieldErr "r"
        (.map [("errors",
          .list [.map [("field", .str "inner"),
            ("error", .str (missingMsg "inner"))]])])) := by
  have hinner : deserialize_raw
      [Field.integer { name := some "inner" } Option.none Option.none]
      (.map []) =
      Except.error (.deser
        [.fieldErr "inner" (.str (missingMsg "inner"))]) := by
    rw [deserialize_raw_map]
    simp [collectErrs, fieldRes, lookupPrim, Field.flags, FieldFlags.fname,
      Prim.isNone]
  have h := C8_related_nesting { name := some "r" }
    [Field.integer { name := some "inner" } Option.none Option.none] (.map [])
  have hr := h.1 _ hinner
  simp only [h.2.1, List.map_cons, List.map_nil, h.2.2] at hr
  simpa using hr

/-- C9: CoalesceField.  With a single child the child's result (success
or failure) is authoritative; with more children, the first child's
success wins, and its field-error failure falls through to the coalesce
of the remaining children; serialize always delegates to the first
child; and a CoalesceField of [Integer, Text] deserializes "abc" to the
text value "abc". -/
theorem C9_coalesce (fl : FieldFlags) (c0 c2 : Field) (cs : List Field)
    (v inst : Prim) :
    (deserializeField (.coalesce fl c0 []) v = deserializeField c0 v) ∧
    (∀ r, deserializeField c0 v = Except.ok r →
      deserializeField (.coalesce fl c0 (c2 :: cs)) v = Except.ok r) ∧
    (∀ n reason, deserializeField c0 v = Except.error (.fieldErr n reason) →
      deserializeField (.coalesce fl c0 (c2 :: cs)) v =
        deserializeField (.coalesce fl c2 cs) v) ∧
    (serializeField (.coalesce fl c0 cs) v inst = serializeField c0 v inst) ∧
    deserializeField
        (.coalesce { name := some "c" }
          (Field.integer { name := some "c" } Option.none Option.none)
          [Field.text { name := some "c" } Option.none Option.none
            Option.none])
        (.str "abc") =
      Except.ok (.str "abc") := by
  refine ⟨?_, ?_, ?_, ?_, ?_⟩
  · simp [deserializeField, coalesceGo]
  · intro r h
    simp [deserializeField, coalesceGo, h]
  · intro n reason h
    simp [deserializeField, coalesceGo, h]
  · simp [serializeField]
  · simp [deserializeField, coalesceGo, integerDeserialize, textDeserialize,
      pyInt, parseIntChars, splitSign, pyStr_str, Prim.isNone]

/-- Witness for C9: the Integer child rejects "abc" with a field error,
the Text child accepts it, and the coalesce result is the text value;
serialize of the coalesce field delegates to the first (Integer) child's
identity serialization. -/
theorem C9_witness :
    deserializeField
        (.coalesce { name := some "c" }
          (Field.integer { name := some "c" } Option.none Option.none)
          [Field.text { name := some "c" } Option.none Option.none
            Option.none])
        (.str "abc") =
      Except.ok (.str "abc") ∧
    serializeField
        (.coalesce { name := some "c" }
          (Field.integer { name := some "c" } Option.none Option.none)
          [Field.text { name := some "c" } Option.none Option.none
            Option.none])
        (.int 5) Prim.none =
      .int 5 := by
  have h := C9_coalesce { name := some "c" }
    (Field.integer { name := some "c" } Option.none Option.none)
    (Field.text { name := some "c" } Option.none Option.none Option.none) []
    (.str "abc") Prim.none
  have h2 := C9_coalesce { name := some "c" }
    (Field.integer { name := some "c" } Option.none Option.none)
    (Field.text { name := some "c" } Option.none Option.none Option.none)
    [Field.text { name := some "c" } Option.none Option.none Option.none]
    (.int 5) Prim.none
  refine ⟨h.2.2.2.2, ?_⟩
  rw [h2.2.2.2.1]
  simp [serializeField]
theorem pyFloat_render (m : Int) (e : Nat) :
    pyFloat (.str ⟨renderFloat m e⟩) =
      some (m * 10 ^ (max e 1 - e), max e 1) := by
  show parseFloat (renderFloat m e) = _
  exact parseFloat_renderFloat m e

theorem floatDeserialize_render (fl : FieldFlags) (mn mx : Option ℚ)
    (m : Int) (e : Nat) (hmn : ∀ a ∈ mn, a ≤ floatVal m e)
    (hmx : ∀ b ∈ mx, floatVal m e ≤ b) :
    floatDeserialize fl mn mx (.str ⟨renderFloat m e⟩) =
      Except.ok (.float (m * 10 ^ (max e 1 - e)) (max e 1)) := by
  have hfv := floatVal_parse_render m e
  unfold floatDeserialize
  rw [pyFloat_render]
  have h1 : (mn.any fun a =>
      decide (floatVal (m * 10 ^ (max e 1 - e)) (max e 1) < a)) = false := by
    cases mn with
    | none => rfl
    | some a =>
      have ha := hmn a rfl
      simp [Option.any, hfv, not_lt.2 ha]
  have h2 : (mx.any fun b =>
      decide (b < floatVal (m * 10 ^ (max e 1 - e)) (max e 1))) = false := by
    cases mx with
    | none => rfl
    | some b =>
      have hb := hmx b rfl
      simp [Option.any, hfv, not_lt.2 hb]
  simp only [h1, h2, Bool.or_false, Bool.false_eq_true, if_false]

theorem serializeField_datetime (fl : FieldFlags) (dt : DateTime)
    (inst : Prim) :
    serializeField (Field.datetime fl) (.datetime dt) inst =
      .str ⟨renderDT dt⟩ := by
  simp [serializeField]

theorem deserializeField_datetime (fl : FieldFlags) (v : Prim) :
    deserializeField (Field.datetime fl) v = datetimeDeserialize fl v := by
  simp [deserializeField]

theorem datetimeDeserialize_parse (fl : FieldFlags) (s : String)
    (dt : DateTime) (h : parseDT s.data = some dt) :
    datetimeDeserialize fl (.str s) = Except.ok (.datetime dt) := by
  simp [datetimeDeserialize, h]

/-- C2 counterexample: two scalar round trips that lose information.  A
datetime with a nonzero microsecond satisfies every declared constraint,
but the serialization format has second resolution, so the round trip
returns the truncated value, not an equal one.  A Float field with
`max_precision = 0` rounds 0.5 to 0 (half-to-even) during serialize, so
the round trip returns 0.0 instead of 0.5. -/
theorem C2_counterexample :
    deserializeField (Field.datetime { name := some "d" })
        (serializeField (Field.datetime { name := some "d" })
          (.datetime ⟨2020, 5, 17, 12, 30, 45, 1⟩) Prim.none) =
      Except.ok (.datetime ⟨2020, 5, 17, 12, 30, 45, 0⟩) ∧
    pyEq (.datetime ⟨2020, 5, 17, 12, 30, 45, 0⟩)
      (.datetime ⟨2020, 5, 17, 12, 30, 45, 1⟩) = false ∧
    deserializeField
        (Field.float { name := some "f" } Option.none Option.none (some 0))
        (serializeField
          (Field.float { name := some "f" } Option.none Option.none (some 0))
          (.float 5 1) Prim.none) =
      Except.ok (.float 0 1) ∧
    pyEq (.float 0 1) (.float 5 1) = false := by
  have hval : ValidDT ⟨2020, 5, 17, 12, 30, 45, 0⟩ := by decide
  have hp := parseDT_renderDT ⟨2020, 5, 17, 12, 30, 45, 0⟩ hval rfl
  have hp1 : parseDT (renderDT ⟨2020, 5, 17, 12, 30, 45, 1⟩) =
      some ⟨2020, 5, 17, 12, 30, 45, 0⟩ := by
    rw [show renderDT ⟨2020, 5, 17, 12, 30, 45, 1⟩ =
        renderDT ⟨2020, 5, 17, 12, 30, 45, 0⟩ from rfl]
    exact hp
  refine ⟨?_, ?_, ?_, ?_⟩
  · rw [serializeField_datetime, deserializeField_datetime]
    exact datetimeDeserialize_parse _ _ _ hp1
  · simp [pyEq, numVal]
  · have hrhe : roundHalfEven (floatVal 5 1 * 10 ^ 0) = 0 := by
      have hv : floatVal 5 1 * 10 ^ 0 = (1 : ℚ) / 2 := by
        norm_num [floatVal]
      rw [hv]
      unfold roundHalfEven
      norm_num
    have hfd := floatDeserialize_render { name := some "f" } Option.none
      Option.none 0 0 (by simp) (by simp)
    simp only [serializeField, hrhe, deserializeField]
    rw [hfd]
    norm_num
  · simp [pyEq, numVal, floatVal]
    norm_num

/-- C2 amended: for every scalar field type and every domain value
satisfying the field's declared constraints, deserialize(serialize(v))
returns a value equal (under Python `==`) to the original, provided the
serialized form preserves the value: for Datetime the value's sub-second
component must be zero (the format has second resolution), and for Float
the `max_precision` rounding must not change the value (`max_precision`
unset, or the value exactly representable at that many decimal places).
Integer, Bool, Text and Enum round-trip unconditionally within their
declared constraints; Bool deserializes to the CPython int 0/1, which is
equal to the original bool under Python `==`. -/
theorem C2_amended :
    (∀ (fl : FieldFlags) (mn mx : Option Int) (inst : Prim) (n : Int),
      (∀ a ∈ mn, a ≤ n) → (∀ b ∈ mx, n ≤ b) →
      deserializeField (.integer fl mn mx)
          (serializeField (.integer fl mn mx) (.int n) inst) =
        Except.ok (.int n) ∧ pyEq (.int n) (.int n) = true) ∧
    (∀ (fl : FieldFlags) (mn mx : Option ℚ) (mp : Option Nat) (inst : Prim)
        (m : Int) (e : Nat),
      (∀ a ∈ mn, a ≤ floatVal m e) → (∀ b ∈ mx, floatVal m e ≤ b) →
      (mp = Option.none ∨
        ∃ p k, mp = some p ∧ floatVal m e * 10 ^ p = ((k : Int) : ℚ)) →
      ∃ m2 e2, deserializeField (.float fl mn mx mp)
          (serializeField (.float fl mn mx mp) (.float m e) inst) =
        Except.ok (.float m2 e2) ∧ pyEq (.float m2 e2) (.float m e) = true) ∧
    (∀ (fl : FieldFlags) (inst : Prim) (b : Bool),
      deserializeField (.bool fl)
          (serializeField (.bool fl) (.bool b) inst) =
        Except.ok (.int (if b then 1 else 0)) ∧
      pyEq (.int (if b then 1 else 0)) (.bool b) = true) ∧
    (∀ (fl : FieldFlags) (mn mx : Option Nat)
        (pat : Option (RegularExpression Char)) (inst : Prim) (s : String),
      (∀ a ∈ mn, a ≤ s.length) → (∀ b ∈ mx, s.length ≤ b) →
      (∀ P ∈ pat, pythonMatch P s.data = true) →
      deserializeField (.text fl mn mx pat)
          (serializeField (.text fl mn mx pat) (.str s) inst) =
        Except.ok (.str s) ∧ pyEq (.str s) (.str s) = true) ∧
    (∀ (fl : FieldFlags) (members : List String) (sm : Bool) (inst : Prim)
        (n : String), n ∈ members →
      deserializeField (.enum fl members sm)
          (serializeField (.enum fl members sm) (.enumMember n) inst) =
        Except.ok (.enumMember n) ∧
      pyEq (.enumMember n) (.enumMember n) = true) ∧
    (∀ (fl : FieldFlags) (inst : Prim) (dt : DateTime),
      ValidDT dt → dt.microsecond = 0 →
      deserializeField (.datetime fl)
          (serializeField (.datetime fl) (.datetime dt) inst) =
        Except.ok (.datetime dt) ∧
      pyEq (.datetime dt) (.datetime dt) = true) := by
  refine ⟨?_, ?_, ?_, ?_, ?_, ?_⟩
  · intro fl mn mx inst n hmn hmx
    have hser : serializeField (.integer fl mn mx) (.int n) inst = .int n := by
      simp [serializeField]
    have h1 : (mn.any fun a => decide (n < a)) = false := by
      cases mn with
      | none => rfl
      | some a => simp [Option.any, not_lt.2 (hmn a rfl)]
    have h2 : (mx.any fun b => decide (b < n)) = false := by
      cases mx with
      | none => rfl
      | some b => simp [Option.any, not_lt.2 (hmx b rfl)]
    rw [hser]
    constructor
    · simp only [deserializeField]
      unfold integerDeserialize
      rw [show pyInt (.int n) = some n from rfl]
      simp only [h1, h2, Bool.or_false, Bool.false_eq_true, if_false]
    · simp [pyEq, numVal]
  · intro fl mn mx mp inst m e hmn hmx hp
    rcases hp with hnone | ⟨p, k, hsome, hk⟩
    · subst hnone
      refine ⟨m * 10 ^ (max e 1 - e), max e 1, ?_, ?_⟩
      · have hser : serializeField (.float fl mn mx Option.none)
            (.float m e) inst = .str ⟨renderFloat m e⟩ := by
          simp [serializeField, pyStr]
        rw [hser]
        simp only [deserializeField]
        exact floatDeserialize_render fl mn mx m e hmn hmx
      · simp [pyEq, numVal, floatVal_parse_render]
    · subst hsome
      have hkv : floatVal k p = floatVal m e := by
        have hk2 : ((m : ℚ) / 10 ^ e) * 10 ^ p = ((k : Int) : ℚ) := hk
        unfold floatVal
        rw [← hk2]
        field_simp
        ring
      refine ⟨k * 10 ^ (max p 1 - p), max p 1, ?_, ?_⟩
      · have hser : serializeField (.float fl mn mx (some p))
            (.float m e) inst =
            .str ⟨renderFloat (roundHalfEven (floatVal m e * 10 ^ p)) p⟩ := by
          simp [serializeField]
        rw [hser, hk, roundHalfEven_intCast]
        simp only [deserializeField]
        refine floatDeserialize_render fl mn mx k p ?_ ?_
        · intro a ha; rw [hkv]; exact hmn a ha
        · intro b hb; rw [hkv]; exact hmx b hb
      · have := floatVal_parse_render k p
        simp [pyEq, numVal, this, hkv]
  · intro fl inst b
    have hser : serializeField (.bool fl) (.bool b) inst = .bool b := by
      simp [serializeField]
    rw [hser]
    cases b
    · constructor
      · simp only [deserializeField]
        unfold boolDeserialize
        rw [show pyStr (.bool false) = "False" from by simp [pyStr]]
        rfl
      · simp [pyEq, numVal]
    · constructor
      · simp only [deserializeField]
        unfold boolDeserialize
        rw [show pyStr (.bool true) = "True" from by simp [pyStr]]
        rfl
      · simp [pyEq, numVal]
  · intro fl mn mx pat inst s hmn hmx hpat
    have hser : serializeField (.text fl mn mx pat) (.str s) inst = .str s := by
      simp [serializeField]
    rw [hser]
    have h1 : (mn.any fun a => decide (s.length < a)) = false := by
      cases mn with
      | none => rfl
      | some a => simp [Option.any, not_lt.2 (hmn a rfl)]
    have h2 : (mx.any fun b => decide (b < s.length)) = false := by
      cases mx with
      | none => rfl
      | some b => simp [Option.any, not_lt.2 (hmx b rfl)]
    constructor
    · simp only [deserializeField]
      unfold textDeserialize
      rw [pyStr_str]
      cases pat with
      | none => simp [Prim.isNone, h1, h2]
      | some P => simp [Prim.isNone, h1, h2, hpat P rfl]
    · simp [pyEq, numVal]
  · intro fl members sm inst n hmem
    have hser : serializeField (.enum fl members sm) (.enumMember n) inst =
        .str n := by
      simp [serializeField]
    rw [hser]
    constructor
    · simp only [deserializeField]
      unfold enumDeserialize
      rw [pyStr_str, if_pos (List.elem_eq_true_of_mem hmem)]
    · simp [pyEq, numVal]
  · intro fl inst dt hv h0
    have hser : serializeField (.datetime fl) (.datetime dt) inst =
        .str ⟨renderDT dt⟩ := by
      simp [serializeField]
    rw [hser]
    constructor
    · simp only [deserializeField]
      unfold datetimeDeserialize
      dsimp only
      rw [parseDT_renderDT dt hv h0]
    · simp [pyEq, numVal]

/-- Witness for C2 amended: one concrete round trip per scalar type —
Integer 5, Float 0.25 (no precision cap), Bool true (equal to 1 under
Python ==), Text "hi", Enum member "B", and the second-resolution
datetime 2020-05-17 12:30:45. -/
theorem C2_witness :
    (deserializeField (.integer { name := some "i" } Option.none Option.none)
        (serializeField (.integer { name := some "i" } Option.none Option.none)
          (.int 5) Prim.none) =
      Except.ok (.int 5)) ∧
    (∃ m2 e2, deserializeField
        (.float { name := some "f" } Option.none Option.none Option.none)
        (serializeField
          (.float { name := some "f" } Option.none Option.none Option.none)
          (.float 25 2) Prim.none) =
      Except.ok (.float m2 e2) ∧ pyEq (.float m2 e2) (.float 25 2) = true) ∧
    (deserializeField (.bool { name := some "b" })
        (serializeField (.bool { name := some "b" }) (.bool true) Prim.none) =
      Except.ok (.int 1) ∧ pyEq (.int 1) (.bool true) = true) ∧
    (deserializeField
        (.text { name := some "t" } Option.none Option.none Option.none)
        (serializeField
          (.text { name := some "t" } Option.none Option.none Option.none)
          (.str "hi") Prim.none) =
      Except.ok (.str "hi")) ∧
    (deserializeField (.enum { name := some "e" } ["A", "B"] false)
        (serializeField (.enum { name := some "e" } ["A", "B"] false)
          (.enumMember "B") Prim.none) =
      Except.ok (.enumMember "B")) ∧
    (deserializeField (.datetime { name := some "d" })
        (serializeField (.datetime { name := some "d" })
          (.datetime ⟨2020, 5, 17, 12, 30, 45, 0⟩) Prim.none) =
      Except.ok (.datetime ⟨2020, 5, 17, 12, 30, 45, 0⟩)) := by
  obtain ⟨hInt, hFloat, hBool, hText, hEnum, hDT⟩ := C2_amended
  refine ⟨?_, ?_, ?_, ?_, ?_, ?_⟩
  · exact (hInt { name := some "i" } Option.none Option.none Prim.none 5
      (by simp) (by simp)).1
  · exact hFloat { name := some "f" } Option.none Option.none Option.none
      Prim.none 25 2 (by simp) (by simp) (Or.inl rfl)
  · exact hBool { name := some "b" } Prim.none true
  · exact (hText { name := some "t" } Option.none Option.none Option.none
      Prim.none "hi" (by simp) (by simp) (by simp)).1
  · exact (hEnum { name := some "e" } ["A", "B"] false Prim.none "B"
      (by simp)).1
  · exact (hDT { name := some "d" } Prim.none ⟨2020, 5, 17, 12, 30, 45, 0⟩
      (by decide) rfl).1

/-- Witness for C6: the List-of-Integer field rejects a bool and a bare
string with the `Expected list` error, and maps the child over
["1","2","3"] to [1,2,3]. -/
theorem C6_witness :
    deserializeField
        (Field.list { name := some "l" }
          (Field.integer { name := some "l" } Option.none Option.none))
        (.bool true) =
      Except.error (.fieldErr "l" (.str "Expected list")) ∧
    deserializeField
        (Field.list { name := some "l" }
          (Field.integer { name := some "l" } Option.none Option.none))
        (.str "12") =
      Except.error (.fieldErr "l" (.str "Expected list")) ∧
    deserializeField
        (Field.list { name := some "l" }
          (Field.integer { name := some "l" } Option.none Option.none))
        (.list [.str "1", .str "2", .str "3"]) =
      Except.ok (.list [.int 1, .int 2, .int 3]) := by
  have h := C6_amended { name := some "l" }
    (Field.integer { name := some "l" } Option.none Option.none)
  exact ⟨h.1 (.bool true) rfl, h.2.1 "12", h.2.2.2.2.2⟩

end HardCandy
